import Mathlib

/-!
ANASIM series RLC simulator: embedding of the simulation core.

Shallow embedding of `Resistor(1).h`, `Assignment1/Capacitor.h`,
`Assignment1/Inductor.h`, `Assignment1/AnalogCircuit.h` and `AnalogCircuit(1).cpp`.

Modelling conventions.
* A C++ `double` is a rational number (`ℚ`), and a decimal literal denotes its
  decimal value. Infinities and NaN are outside the model.
* The time path decides which steps are performed, so it follows the machine
  arithmetic: the constructor stores the end time as the `double` nearest to its
  argument (`toDouble`), the clock advances by double addition (`dadd`, which
  reads both operands as doubles and rounds the sum to nearest, ties to even),
  the decay threshold is the double product `dmul 0.6 timeMax`, and the time
  stamp is the clock cast to `float` (`toFloat`). The exponent range of the two
  formats is not bounded.
* The value path (component voltages, the solver's mismatch and step size) is
  exact rational arithmetic; the statements about it are about exact arithmetic.
* `sin` of `<cmath>` is not rational-valued; it is a parameter `sn : ℚ → ℚ` of the
  functions that call it.
* The member `components` is the vector `{R1, C1, L1}` that the constructor fills
  and nobody resizes; it is kept as the three fields `resistor`, `capacitor`,
  `inductor`, and a loop over `components` visits them in that order.
* The file-scope vectors `voltageHistory`, `inputHistory`, `timeHistory` and the
  flags `globalSimulationRunning`, `globalSimulationComplete` are threaded
  through the same state record as the members of the class.
* An `int` counter (`stepCount`, `iterations`) is a natural number; overflow is
  outside the model.
* `cout` is kept only for the solver's warning line (the residual it prints);
  `fout` is kept for its data rows. `PumpMessages` does not touch the simulation
  state and is left out.
-/

namespace AnalogSim

/-- The `fabs` of `<cmath>` on exact values. -/
def fabs (x : ℚ) : ℚ := if x < 0 then -x else x

/-- The macro `M_PI` of `<cmath>`, read as a decimal. -/
def M_PI : ℚ := 3.14159265358979323846

/-- The number of halvings that bring `n` below 2, with at most `fuel` halvings:
for `n <= fuel` the integer part of the binary logarithm of `n`. -/
def log2Fuel : ℕ → ℕ → ℕ
  | 0, _ => 0
  | fuel + 1, n => if n < 2 then 0 else log2Fuel fuel (n / 2) + 1

/-- The integer part of the binary logarithm of a positive natural number. -/
def natLog2 (n : ℕ) : ℕ := log2Fuel n n

/-- The binary exponent of a nonzero rational `x`: the `e` with
`2 ^ e <= |x| < 2 ^ (e + 1)`. -/
def ilog2 (x : ℚ) : ℤ :=
  if (2 : ℚ) ^ ((natLog2 x.num.natAbs : ℤ) - (natLog2 x.den : ℤ)) ≤ |x|
  then (natLog2 x.num.natAbs : ℤ) - (natLog2 x.den : ℤ)
  else (natLog2 x.num.natAbs : ℤ) - (natLog2 x.den : ℤ) - 1

/-- Rounding to the nearest integer, a tie going to the even neighbour. -/
def rne (y : ℚ) : ℤ :=
  if y - ⌊y⌋ < 1 / 2 then ⌊y⌋
  else if 1 / 2 < y - ⌊y⌋ then ⌊y⌋ + 1
  else if ⌊y⌋ % 2 = 0 then ⌊y⌋ else ⌊y⌋ + 1

/-- Rounding to the nearest binary floating-point number with `prec` significant
bits, ties to even (the IEEE 754 default). The exponent range is not bounded:
overflow and subnormal numbers are outside the model. -/
def roundBinary (prec : ℕ) (x : ℚ) : ℚ :=
  if x = 0 then 0
  else (rne (x / 2 ^ (ilog2 x - ((prec : ℤ) - 1))) : ℚ) * 2 ^ (ilog2 x - ((prec : ℤ) - 1))

/-- The `double` (binary64, 53 significant bits) nearest to `x`. -/
def toDouble (x : ℚ) : ℚ := roundBinary 53 x

/-- The `float` (binary32, 24 significant bits) nearest to `x`: `static_cast<float>`. -/
def toFloat (x : ℚ) : ℚ := roundBinary 24 x

/-- Addition of two `double` variables: both operands are read as doubles and the
sum is rounded. -/
def dadd (x y : ℚ) : ℚ := toDouble (toDouble x + toDouble y)

/-- Multiplication of two `double` values, rounded. -/
def dmul (x y : ℚ) : ℚ := toDouble (toDouble x * toDouble y)

/-- The clock after `n` executions of `currentTime += T` from the value `t`. -/
def clockAfter (T : ℚ) : ℕ → ℚ → ℚ
  | 0, t => t
  | n + 1, t => clockAfter T n (dadd t T)

/-- Rounding of a natural number to `prec` significant bits, ties to even: the
integer form of `roundBinary`, used to evaluate long clock runs. -/
def roundNat (prec N : ℕ) : ℕ :=
  if 2 * (N % 2 ^ (natLog2 N + 1 - prec)) < 2 ^ (natLog2 N + 1 - prec) then
    N / 2 ^ (natLog2 N + 1 - prec) * 2 ^ (natLog2 N + 1 - prec)
  else if 2 ^ (natLog2 N + 1 - prec) < 2 * (N % 2 ^ (natLog2 N + 1 - prec)) then
    (N / 2 ^ (natLog2 N + 1 - prec) + 1) * 2 ^ (natLog2 N + 1 - prec)
  else if N / 2 ^ (natLog2 N + 1 - prec) % 2 = 0 then
    N / 2 ^ (natLog2 N + 1 - prec) * 2 ^ (natLog2 N + 1 - prec)
  else (N / 2 ^ (natLog2 N + 1 - prec) + 1) * 2 ^ (natLog2 N + 1 - prec)

/-- The clock in units of `2^-k` after `n` double additions of a step of `S` such
units. -/
def clockNum (S : ℕ) : ℕ → ℕ → ℕ
  | 0, N => N
  | n + 1, N => clockNum S n (roundNat 53 (N + S))

/-- In units of `2^-k`: the clock is below `tmax` before each of `n` additions of
`S` and has reached it after them. -/
def runsExactlyNum (S tmax : ℕ) : ℕ → ℕ → Bool
  | 0, N => decide (tmax ≤ N)
  | n + 1, N => decide (N < tmax) && runsExactlyNum S tmax n (roundNat 53 (N + S))

/-- Class `Resistor`: stateless, holds its resistance. -/
structure Resistor where
  resistance : ℚ
  deriving DecidableEq, Repr

/-- Method `Resistor::GetVoltage(I, T)`: returns `I * resistance`. -/
def Resistor.GetVoltage (r : Resistor) (I _T : ℚ) : ℚ := I * r.resistance

/-- Class `Capacitor`: capacitance and the stored voltage. -/
structure Capacitor where
  capacitance : ℚ
  voltage : ℚ
  deriving DecidableEq, Repr

/-- Method `Capacitor::GetVoltage(I, T)`: returns the stored voltage. -/
def Capacitor.GetVoltage (c : Capacitor) (_I _T : ℚ) : ℚ := c.voltage

/-- Method `Capacitor::UpdateVoltage(I, T)`: `voltage += I * T / capacitance`. -/
def Capacitor.UpdateVoltage (c : Capacitor) (I T : ℚ) : Capacitor :=
  { c with voltage := c.voltage + I * T / c.capacitance }

/-- Class `Inductor`: inductance and the last committed current. -/
structure Inductor where
  inductance : ℚ
  lastCurrent : ℚ
  deriving DecidableEq, Repr

/-- Method `Inductor::GetVoltage(I, T)`: `inductance * (I - lastCurrent) / T`. -/
def Inductor.GetVoltage (l : Inductor) (I T : ℚ) : ℚ :=
  l.inductance * (I - l.lastCurrent) / T

/-- Method `Inductor::SetCurrent(current)`: `lastCurrent = current`. -/
def Inductor.SetCurrent (l : Inductor) (current : ℚ) : Inductor :=
  { l with lastCurrent := current }

/-- One data row written to `fout` by `runStep`. -/
structure FoutRow where
  time : ℚ
  current : ℚ
  vR : ℚ
  vC : ℚ
  vL : ℚ
  deriving DecidableEq, Repr

/-- Class `AnalogCircuit` together with the file-scope simulation globals. -/
structure AnalogCircuit where
  T : ℚ
  tolerance : ℚ
  freq : ℚ
  R_val : ℚ
  L_val : ℚ
  C_val : ℚ
  I : ℚ
  resistor : Resistor
  capacitor : Capacitor
  inductor : Inductor
  fout : List FoutRow
  simulationRunning : Bool
  simulationComplete : Bool
  currentTime : ℚ
  stepCount : ℕ
  timeMax : ℚ
  Vpeak : ℚ
  voltageHistory0 : List ℚ
  voltageHistory1 : List ℚ
  voltageHistory2 : List ℚ
  inputHistory : List ℚ
  timeHistory : List ℚ
  globalSimulationRunning : Bool
  globalSimulationComplete : Bool
  warnings : List ℚ
  deriving DecidableEq, Repr

/-- The member initialisers and the body of the constructor after the file check:
the circuit that `AnalogCircuit::AnalogCircuit(filename, R, L, C, frequency,
peakVoltage, simTime)` yields when the output file opens. The parameter
`simTime` is a `double`: the member `timeMax` holds the double nearest to the
given number. The two global flags start `false` (their static initialisers). -/
def AnalogCircuit.fresh (R L C frequency peakVoltage simTime : ℚ) : AnalogCircuit :=
  { T := 0.0001
    tolerance := 0.001
    freq := frequency
    R_val := R
    L_val := L
    C_val := C
    I := 0
    resistor := { resistance := R }
    capacitor := { capacitance := C, voltage := 0 }
    inductor := { inductance := L, lastCurrent := 0 }
    fout := []
    simulationRunning := false
    simulationComplete := false
    currentTime := 0
    stepCount := 0
    timeMax := toDouble simTime
    Vpeak := peakVoltage
    voltageHistory0 := []
    voltageHistory1 := []
    voltageHistory2 := []
    inputHistory := []
    timeHistory := []
    globalSimulationRunning := false
    globalSimulationComplete := false
    warnings := [] }

/-- The constructor `AnalogCircuit::AnalogCircuit`. `fileOpens` is the outcome of
`fout.is_open()`: when the file cannot be opened the constructor calls `exit(1)`
and no circuit exists. Nothing else is checked. -/
def AnalogCircuit.construct (fileOpens : Bool) (R L C frequency peakVoltage simTime : ℚ) :
    Option AnalogCircuit :=
  if fileOpens then some (AnalogCircuit.fresh R L C frequency peakVoltage simTime) else none

/-- The loop `for (auto& c : components) sumV += c->GetVoltage(I1, timestep)`
started from `sumV = 0.0`, over the components in the order R1, C1, L1. -/
def AnalogCircuit.sumV (c : AnalogCircuit) (I1 timestep : ℚ) : ℚ :=
  ((0 + c.resistor.GetVoltage I1 timestep) + c.capacitor.GetVoltage I1 timestep)
    + c.inductor.GetVoltage I1 timestep

/-- The constant `maxIterations` of `CostFunctionV`. -/
def maxIterations : ℕ := 1000

/-- The local variables of `CostFunctionV`. -/
structure SolverState where
  I1 : ℚ
  J1 : ℚ
  J0 : ℚ
  alpha : ℚ
  iterations : ℕ
  deriving DecidableEq, Repr

/-- The body of the `do` loop of `CostFunctionV` up to the safety check:
count the iteration, evaluate the mismatch, halve `alpha` on the progress test,
move the guess when out of tolerance, reset a tiny `alpha`. -/
def AnalogCircuit.iterBody (c : AnalogCircuit) (voltage timestep : ℚ) (s : SolverState) :
    SolverState :=
  let iterations := s.iterations + 1
  let sumV := c.sumV s.I1 timestep
  let J1 := sumV - voltage
  let alpha1 := if (fabs (s.J0 - J1) ≠ (s.J0 - J1)) ∨ s.J0 = J1 then s.alpha / 2.0 else s.alpha
  let I1 := if fabs J1 > c.tolerance then (if J1 < 0 then s.I1 + alpha1 else s.I1 - alpha1)
            else s.I1
  let J0 := if fabs J1 > c.tolerance then J1 else s.J0
  let alpha2 := if alpha1 < c.tolerance / 1000000 then 0.01 else alpha1
  { I1 := I1, J1 := J1, J0 := J0, alpha := alpha2, iterations := iterations }

/-- What one call of `CostFunctionV` produces: the value written back to
`current`, the final mismatch `J1`, the number of passes through the loop body
(one evaluation of `sumV` each), the residual printed by the warning line if it
was printed, and whether the loop was left through the `break` of the safety
check. `evaluatedAt` is an observation, not a variable of the source: the trial
current at which `sumV` was evaluated in the last pass. -/
structure SolverResult where
  current : ℚ
  J1 : ℚ
  iterations : ℕ
  evaluatedAt : ℚ
  warning : Option ℚ
  capExit : Bool
  deriving DecidableEq, Repr

/-- The `do { ... } while (fabs(J1) > tolerance)` loop of `CostFunctionV`, entered
with the locals `s`. It terminates on the loop's own counter. -/
def AnalogCircuit.costLoop (c : AnalogCircuit) (voltage timestep : ℚ) (s : SolverState) :
    SolverResult :=
  if (c.iterBody voltage timestep s).iterations > maxIterations then
    { current := (c.iterBody voltage timestep s).I1
      J1 := (c.iterBody voltage timestep s).J1
      iterations := (c.iterBody voltage timestep s).iterations
      evaluatedAt := s.I1
      warning := if fabs (c.iterBody voltage timestep s).J1 > 0.1
                 then some (c.iterBody voltage timestep s).J1 else none
      capExit := true }
  else if fabs (c.iterBody voltage timestep s).J1 > c.tolerance then
    c.costLoop voltage timestep (c.iterBody voltage timestep s)
  else
    { current := (c.iterBody voltage timestep s).I1
      J1 := (c.iterBody voltage timestep s).J1
      iterations := (c.iterBody voltage timestep s).iterations
      evaluatedAt := s.I1
      warning := none
      capExit := false }
termination_by maxIterations + 1 - s.iterations
decreasing_by
  simp only [AnalogCircuit.iterBody] at *
  omega

/-- Method `AnalogCircuit::CostFunctionV(current, voltage, timestep)`: the locals are
initialised (`I1 = current`, `J1 = J0 = 0`, `alpha = 0.01`, `iterations = 0`) and
the loop runs; the caller stores `current` of the result. -/
def AnalogCircuit.CostFunctionV (c : AnalogCircuit) (current voltage timestep : ℚ) :
    SolverResult :=
  c.costLoop voltage timestep
    { I1 := current, J1 := 0.0, J0 := 0.0, alpha := 0.01, iterations := 0 }

/-- The source voltage of a step: `(currentTime < 0.6 * timeMax) ?
Vpeak * sin(2.0 * M_PI * freq * currentTime) : 0.0`; the threshold is the double
product. -/
def AnalogCircuit.V_input (sn : ℚ → ℚ) (c : AnalogCircuit) : ℚ :=
  if c.currentTime < dmul 0.6 c.timeMax
  then c.Vpeak * sn (2.0 * M_PI * c.freq * c.currentTime)
  else 0.0

/-- Method `AnalogCircuit::runStep()`: the returned flag and the state it leaves.
The time stamp is `static_cast<float>(currentTime)` and the clock advances by
the double addition `currentTime += T`. -/
def AnalogCircuit.runStep (sn : ℚ → ℚ) (c : AnalogCircuit) : Bool × AnalogCircuit :=
  if c.currentTime ≥ c.timeMax then
    (false, { c with simulationComplete := true, simulationRunning := false })
  else
    let V_input := c.V_input sn
    let r := c.CostFunctionV c.I V_input c.T
    let I := r.current
    let vR := c.resistor.GetVoltage I c.T
    let vC := c.capacitor.GetVoltage I c.T
    let vL := c.inductor.GetVoltage I c.T
    (true,
      { c with
        I := I
        warnings := c.warnings ++ r.warning.toList
        fout := c.fout ++ [{ time := c.currentTime, current := I, vR := vR, vC := vC, vL := vL }]
        timeHistory := c.timeHistory ++ [toFloat c.currentTime]
        inputHistory := c.inputHistory ++ [V_input]
        voltageHistory0 := c.voltageHistory0 ++ [vR]
        voltageHistory1 := c.voltageHistory1 ++ [vC]
        voltageHistory2 := c.voltageHistory2 ++ [vL]
        capacitor := c.capacitor.UpdateVoltage I c.T
        inductor := c.inductor.SetCurrent I
        currentTime := dadd c.currentTime c.T
        stepCount := c.stepCount + 1 })

/-- Method `AnalogCircuit::run()`: writes the header line and raises the running flags. -/
def AnalogCircuit.run (c : AnalogCircuit) : AnalogCircuit :=
  { c with
    simulationRunning := true
    simulationComplete := false
    globalSimulationRunning := true
    globalSimulationComplete := false }

/-- The state after `n` consecutive calls of `runStep`. -/
def AnalogCircuit.runSteps (sn : ℚ → ℚ) : ℕ → AnalogCircuit → AnalogCircuit
  | 0, c => c
  | n + 1, c => (AnalogCircuit.runSteps sn n c).runStep sn |>.2

/-- The current accepted by step `k` (counted from 0) of the run that starts at
`c`: the member `I` after `k + 1` calls of `runStep`. -/
def AnalogCircuit.accepted (sn : ℚ → ℚ) (c : AnalogCircuit) (k : ℕ) : ℚ :=
  (c.runSteps sn (k + 1)).I

/-- The current accepted by the step before step `k`; before step 0 it is the 0
the constructor stored. -/
def AnalogCircuit.acceptedBefore (sn : ℚ → ℚ) (c : AnalogCircuit) : ℕ → ℚ
  | 0 => 0
  | k + 1 => c.accepted sn k

/-- The call `GetVoltage(I, T)` on a `Resistor` of `Resistor(1).h` as a step on
the object: the returned value and the object after the call. The method is not
`const`; its body is the single `return` and assigns no member. -/
def Resistor.GetVoltageCall (r : Resistor) (I _T : ℚ) : ℚ × Resistor :=
  (I * r.resistance, r)

/-- The call `GetVoltage(I, T)` on a `Capacitor` of `Assignment1/Capacitor.h` as a
step on the object: `return voltage;`, no member is assigned. -/
def Capacitor.GetVoltageCall (c : Capacitor) (_I _T : ℚ) : ℚ × Capacitor :=
  (c.voltage, c)

/-- The call `GetVoltage(I, T)` on an `Inductor` of `Assignment1/Inductor.h` as a
step on the object: a local `voltage` is computed and returned, no member is
assigned. -/
def Inductor.GetVoltageCall (l : Inductor) (I T : ℚ) : ℚ × Inductor :=
  let voltage := l.inductance * (I - l.lastCurrent) / T
  (voltage, l)

/-- The loop `for (auto& c : components) sumV += c->GetVoltage(I1, timestep)` with
the three objects threaded through their calls: the sum and the objects after
the loop. -/
def AnalogCircuit.sumVCall (c : AnalogCircuit) (I1 timestep : ℚ) :
    ℚ × Resistor × Capacitor × Inductor :=
  let r := c.resistor.GetVoltageCall I1 timestep
  let cap := c.capacitor.GetVoltageCall I1 timestep
  let l := c.inductor.GetVoltageCall I1 timestep
  (((0 + r.1) + cap.1) + l.1, r.2, cap.2, l.2)

/-- Class `Capacitor` of the older `Capacitor.h`: the state is `lastVoltage`. -/
structure LegacyCapacitor where
  capacitance : ℚ
  lastVoltage : ℚ
  deriving DecidableEq, Repr

/-- The call `GetVoltage(I, T)` of the older `Capacitor.h`, which integrates while
reporting: `lastVoltage += (I / capacitance) * T; return lastVoltage;`. -/
def LegacyCapacitor.GetVoltageCall (c : LegacyCapacitor) (I T : ℚ) : ℚ × LegacyCapacitor :=
  let lastVoltage := c.lastVoltage + (I / c.capacitance) * T
  (lastVoltage, { c with lastVoltage := lastVoltage })

/-- The constructor `Capacitor(val, R, G, B, n)` of `Assignment1/Capacitor.h`:
`capacitance(val), voltage(0)`; colour and name are display data. -/
def Capacitor.create (val : ℚ) : Capacitor := { capacitance := val, voltage := 0 }

/-- The capacitor after `n` calls of `UpdateVoltage(I, T)` with the same
arguments. -/
def Capacitor.commits (c : Capacitor) (I T : ℚ) : ℕ → Capacitor
  | 0 => c
  | n + 1 => (Capacitor.commits c I T n).UpdateVoltage I T

/-- The halving rule in the words of the specification: `alpha` is halved
exactly when the new mismatch `J1` is not below the previous mismatch `J0`. -/
def halveUnlessDecreased (J0 J1 alpha : ℚ) : ℚ := if J1 ≥ J0 then alpha / 2 else alpha

/-- The slope `R + L / T` of the voltage sum as a function of the trial current. -/
def AnalogCircuit.slope (c : AnalogCircuit) (T : ℚ) : ℚ :=
  c.resistor.resistance + c.inductor.inductance / T

/-- The exact solution of Kirchhoff's voltage law for the target `Vtarget`:
`(Vtarget - vC + L * lastCurrent / T) / (R + L / T)`. -/
def AnalogCircuit.kvlSolution (c : AnalogCircuit) (Vtarget T : ℚ) : ℚ :=
  (Vtarget - c.capacitor.voltage + c.inductor.inductance * c.inductor.lastCurrent / T)
    / (c.resistor.resistance + c.inductor.inductance / T)

/-- A polynomial stand-in for `sin`, used only to run concrete scenarios. -/
def sinPoly (x : ℚ) : ℚ := x - x ^ 3 / 6 + x ^ 5 / 120

/-- The part of the state that a time step writes: the five history sequences,
the clock, the step count, the accepted current and the two stateful
components. `sameRun c d` says `c` and `d` agree on all of it. -/
def sameRun (c d : AnalogCircuit) : Prop :=
  d.timeHistory = c.timeHistory ∧ d.inputHistory = c.inputHistory ∧
  d.voltageHistory0 = c.voltageHistory0 ∧ d.voltageHistory1 = c.voltageHistory1 ∧
  d.voltageHistory2 = c.voltageHistory2 ∧ d.currentTime = c.currentTime ∧
  d.stepCount = c.stepCount ∧ d.I = c.I ∧ d.capacitor = c.capacitor ∧
  d.inductor = c.inductor

/-- The state `d` extends every history sequence of `c` by exactly one entry. -/
def appendsOne (c d : AnalogCircuit) : Prop :=
  (∃ t, d.timeHistory = c.timeHistory ++ [t]) ∧
  (∃ v, d.inputHistory = c.inputHistory ++ [v]) ∧
  (∃ v, d.voltageHistory0 = c.voltageHistory0 ++ [v]) ∧
  (∃ v, d.voltageHistory1 = c.voltageHistory1 ++ [v]) ∧
  (∃ v, d.voltageHistory2 = c.voltageHistory2 ++ [v])

/-! ## Binary rounding -/

theorem log2Fuel_spec (fuel n : ℕ) (h1 : 1 ≤ n) (hf : n ≤ fuel) :
    2 ^ log2Fuel fuel n ≤ n ∧ n < 2 ^ (log2Fuel fuel n + 1) := by
  induction fuel generalizing n with
  | zero => omega
  | succ fuel ih =>
    unfold log2Fuel
    split_ifs with h2
    · constructor
      · simpa using h1
      · simpa using h2
    · obtain ⟨l, u⟩ := ih (n / 2) (by omega) (by omega)
      simp only [pow_succ] at u ⊢
      generalize 2 ^ log2Fuel fuel (n / 2) = a at l u ⊢
      omega

theorem natLog2_spec (n : ℕ) (h1 : 1 ≤ n) :
    2 ^ natLog2 n ≤ n ∧ n < 2 ^ (natLog2 n + 1) :=
  log2Fuel_spec n n h1 le_rfl

theorem two_zpow_pos (k : ℤ) : (0 : ℚ) < 2 ^ k := zpow_pos (by norm_num) k

/-- The binary exponent brackets a positive rational. -/
theorem ilog2_spec (x : ℚ) (hx : 0 < x) :
    (2 : ℚ) ^ ilog2 x ≤ x ∧ x < 2 ^ (ilog2 x + 1) := by
  have hnum : 0 < x.num := Rat.num_pos.mpr hx
  have hden : 0 < x.den := x.den_pos
  obtain ⟨la, ua⟩ := natLog2_spec x.num.natAbs (by omega)
  obtain ⟨lb, ub⟩ := natLog2_spec x.den (by omega)
  have la' : (2 : ℚ) ^ (natLog2 x.num.natAbs) ≤ (x.num.natAbs : ℚ) := by exact_mod_cast la
  have ua' : (x.num.natAbs : ℚ) < 2 ^ (natLog2 x.num.natAbs + 1) := by exact_mod_cast ua
  have lb' : (2 : ℚ) ^ (natLog2 x.den) ≤ (x.den : ℚ) := by exact_mod_cast lb
  have ub' : (x.den : ℚ) < 2 ^ (natLog2 x.den + 1) := by exact_mod_cast ub
  have hdq : (0 : ℚ) < (x.den : ℚ) := by exact_mod_cast hden
  have hn : (x.num.natAbs : ℚ) = (x.num : ℚ) := by
    rw [Nat.cast_natAbs, abs_of_pos hnum]
  have hxe : x = (x.num.natAbs : ℚ) / (x.den : ℚ) := by
    rw [hn]
    exact (Rat.num_div_den x).symm
  have habs : |x| = x := abs_of_pos hx
  unfold ilog2
  rw [habs]
  generalize natLog2 x.num.natAbs = p at la' ua' ⊢
  generalize natLog2 x.den = q at lb' ub' ⊢
  generalize (x.num.natAbs : ℚ) = A at la' ua' hxe
  generalize (x.den : ℚ) = B at lb' ub' hxe hdq
  have hA : (0 : ℚ) ≤ A := le_trans (pow_pos (by norm_num) p).le la'
  have hup : x < 2 ^ ((p : ℤ) - (q : ℤ) + 1) := by
    have e : (2 : ℚ) ^ ((p : ℤ) - (q : ℤ) + 1) = 2 ^ (p + 1) / 2 ^ q := by
      rw [show ((p : ℤ) - (q : ℤ) + 1) = ((p + 1 : ℕ) : ℤ) - ((q : ℕ) : ℤ) by push_cast; ring]
      rw [zpow_sub₀ (by norm_num), zpow_natCast, zpow_natCast]
    rw [e, hxe, div_lt_div_iff₀ hdq (pow_pos (by norm_num) _)]
    calc A * 2 ^ q ≤ A * B := mul_le_mul_of_nonneg_left lb' hA
      _ < 2 ^ (p + 1) * B := mul_lt_mul_of_pos_right ua' hdq
  have hlow : (2 : ℚ) ^ ((p : ℤ) - (q : ℤ) - 1) ≤ x := by
    have e : (2 : ℚ) ^ ((p : ℤ) - (q : ℤ) - 1) = 2 ^ p / 2 ^ (q + 1) := by
      rw [show ((p : ℤ) - (q : ℤ) - 1) = ((p : ℕ) : ℤ) - ((q + 1 : ℕ) : ℤ) by push_cast; ring]
      rw [zpow_sub₀ (by norm_num), zpow_natCast, zpow_natCast]
    rw [e, hxe, div_le_div_iff₀ (pow_pos (by norm_num) _) hdq]
    calc (2 : ℚ) ^ p * B ≤ A * B := mul_le_mul_of_nonneg_right la' hdq.le
      _ ≤ A * 2 ^ (q + 1) := mul_le_mul_of_nonneg_left ub'.le hA
  split_ifs with ht
  · exact ⟨ht, hup⟩
  · refine ⟨hlow, ?_⟩
    rw [sub_add_cancel]
    exact not_le.mp ht

/-- The binary exponent is determined by the bracket. -/
theorem ilog2_eq (x : ℚ) (k : ℤ) (hl : (2 : ℚ) ^ k ≤ x) (hu : x < 2 ^ (k + 1)) :
    ilog2 x = k := by
  have hx : 0 < x := lt_of_lt_of_le (two_zpow_pos k) hl
  obtain ⟨l, u⟩ := ilog2_spec x hx
  have h1 : (2 : ℚ) ^ k < 2 ^ (ilog2 x + 1) := lt_of_le_of_lt hl u
  have h2 : (2 : ℚ) ^ ilog2 x < 2 ^ (k + 1) := lt_of_le_of_lt l hu
  have h1' := (zpow_lt_zpow_iff_right₀ (by norm_num : (1 : ℚ) < 2)).mp h1
  have h2' := (zpow_lt_zpow_iff_right₀ (by norm_num : (1 : ℚ) < 2)).mp h2
  omega

theorem rne_spec (y : ℚ) : |(rne y : ℚ) - y| ≤ 1 / 2 := by
  have h0 : (0 : ℚ) ≤ y - ⌊y⌋ := sub_nonneg.mpr (Int.floor_le y)
  have h1 : y - ⌊y⌋ < 1 := by
    have := Int.lt_floor_add_one y
    linarith
  unfold rne
  rw [abs_le]
  split_ifs with a b c
  · constructor <;> linarith
  · push_cast
    constructor <;> linarith
  · constructor <;> linarith
  · push_cast
    constructor <;> linarith

theorem rne_intCast (k : ℤ) : rne (k : ℚ) = k := by
  unfold rne
  rw [Int.floor_intCast, sub_self, if_pos (by norm_num)]

theorem rne_mono {y z : ℚ} (h : y ≤ z) : rne y ≤ rne z := by
  by_contra hc
  have hlt : rne z + 1 ≤ rne y := by omega
  have hq : ((rne z : ℤ) : ℚ) + 1 ≤ (rne y : ℚ) := by exact_mod_cast hlt
  have hy := abs_le.mp (rne_spec y)
  have hz := abs_le.mp (rne_spec z)
  have hzy : z = y := le_antisymm (by linarith) h
  rw [hzy] at hc
  exact hc le_rfl

theorem roundBinary_zero (p : ℕ) : roundBinary p 0 = 0 := by
  simp [roundBinary]

theorem roundBinary_of_ne (p : ℕ) (x : ℚ) (hx : x ≠ 0) :
    roundBinary p x =
      (rne (x / 2 ^ (ilog2 x - ((p : ℤ) - 1))) : ℚ) * 2 ^ (ilog2 x - ((p : ℤ) - 1)) := by
  simp [roundBinary, hx]

/-- A positive number rounds into the closed binade of its exponent. -/
theorem roundBinary_bounds (p : ℕ) (hp : 1 ≤ p) (x : ℚ) (hx : 0 < x) :
    (2 : ℚ) ^ ilog2 x ≤ roundBinary p x ∧ roundBinary p x ≤ 2 ^ (ilog2 x + 1) ∧
      (2 : ℤ) ^ (p - 1) ≤ rne (x / 2 ^ (ilog2 x - ((p : ℤ) - 1))) ∧
      rne (x / 2 ^ (ilog2 x - ((p : ℤ) - 1))) ≤ (2 : ℤ) ^ p := by
  obtain ⟨l, u⟩ := ilog2_spec x hx
  have hs : (0 : ℚ) < 2 ^ (ilog2 x - ((p : ℤ) - 1)) := two_zpow_pos _
  have e1 : (2 : ℚ) ^ ilog2 x = ((2 : ℤ) ^ (p - 1) : ℤ) * 2 ^ (ilog2 x - ((p : ℤ) - 1)) := by
    push_cast
    rw [← zpow_natCast, ← zpow_add₀ (by norm_num)]
    congr 1
    have : ((p - 1 : ℕ) : ℤ) = (p : ℤ) - 1 := by omega
    rw [this]
    ring
  have e2 : (2 : ℚ) ^ (ilog2 x + 1) = ((2 : ℤ) ^ p : ℤ) * 2 ^ (ilog2 x - ((p : ℤ) - 1)) := by
    push_cast
    rw [← zpow_natCast, ← zpow_add₀ (by norm_num)]
    congr 1
    ring
  have hlo : (((2 : ℤ) ^ (p - 1) : ℤ) : ℚ) ≤ x / 2 ^ (ilog2 x - ((p : ℤ) - 1)) := by
    rw [le_div_iff₀ hs, ← e1]
    exact l
  have hhi : x / 2 ^ (ilog2 x - ((p : ℤ) - 1)) ≤ (((2 : ℤ) ^ p : ℤ) : ℚ) := by
    rw [div_le_iff₀ hs, ← e2]
    exact u.le
  have rlo := rne_mono hlo
  have rhi := rne_mono hhi
  rw [rne_intCast] at rlo rhi
  rw [roundBinary_of_ne p x hx.ne', e1, e2]
  refine ⟨?_, ?_, rlo, rhi⟩
  · exact mul_le_mul_of_nonneg_right (by exact_mod_cast rlo) hs.le
  · exact mul_le_mul_of_nonneg_right (by exact_mod_cast rhi) hs.le

theorem roundBinary_pos (p : ℕ) (hp : 1 ≤ p) (x : ℚ) (hx : 0 < x) : 0 < roundBinary p x :=
  lt_of_lt_of_le (two_zpow_pos _) (roundBinary_bounds p hp x hx).1

theorem roundBinary_nonpos (p : ℕ) (x : ℚ) (hx : x ≤ 0) : roundBinary p x ≤ 0 := by
  rcases eq_or_lt_of_le hx with h | h
  · rw [h, roundBinary_zero]
  · rw [roundBinary_of_ne p x h.ne]
    have hs : (0 : ℚ) < 2 ^ (ilog2 x - ((p : ℤ) - 1)) := two_zpow_pos _
    have hq : x / 2 ^ (ilog2 x - ((p : ℤ) - 1)) ≤ ((0 : ℤ) : ℚ) := by
      rw [Int.cast_zero]
      exact div_nonpos_of_nonpos_of_nonneg hx hs.le
    have hr := rne_mono hq
    rw [rne_intCast] at hr
    have hr' : (rne (x / 2 ^ (ilog2 x - ((p : ℤ) - 1))) : ℚ) ≤ 0 := by exact_mod_cast hr
    exact mul_nonpos_of_nonpos_of_nonneg hr' hs.le

theorem roundBinary_nonneg (p : ℕ) (hp : 1 ≤ p) (x : ℚ) (hx : 0 ≤ x) : 0 ≤ roundBinary p x := by
  rcases eq_or_lt_of_le hx with h | h
  · rw [← h, roundBinary_zero]
  · exact (roundBinary_pos p hp x h).le

/-- Rounding is monotone on the positive numbers. -/
theorem roundBinary_mono_pos (p : ℕ) (hp : 1 ≤ p) (x y : ℚ) (hx : 0 < x) (hxy : x ≤ y) :
    roundBinary p x ≤ roundBinary p y := by
  have hy : 0 < y := lt_of_lt_of_le hx hxy
  obtain ⟨lx, ux⟩ := ilog2_spec x hx
  obtain ⟨ly, uy⟩ := ilog2_spec y hy
  have hle : ilog2 x ≤ ilog2 y := by
    have h : (2 : ℚ) ^ ilog2 x < 2 ^ (ilog2 y + 1) := lt_of_le_of_lt (le_trans lx hxy) uy
    have := (zpow_lt_zpow_iff_right₀ (by norm_num : (1 : ℚ) < 2)).mp h
    omega
  rcases eq_or_lt_of_le hle with he | hlt
  · rw [roundBinary_of_ne p x hx.ne', roundBinary_of_ne p y hy.ne', he]
    have hs : (0 : ℚ) < 2 ^ (ilog2 y - ((p : ℤ) - 1)) := two_zpow_pos _
    have hq : x / 2 ^ (ilog2 y - ((p : ℤ) - 1)) ≤ y / 2 ^ (ilog2 y - ((p : ℤ) - 1)) :=
      div_le_div_of_nonneg_right hxy hs.le
    have hr : (rne (x / 2 ^ (ilog2 y - ((p : ℤ) - 1))) : ℚ) ≤
        (rne (y / 2 ^ (ilog2 y - ((p : ℤ) - 1))) : ℚ) := by exact_mod_cast rne_mono hq
    exact mul_le_mul_of_nonneg_right hr hs.le
  · calc roundBinary p x ≤ 2 ^ (ilog2 x + 1) := (roundBinary_bounds p hp x hx).2.1
      _ ≤ 2 ^ ilog2 y := zpow_le_zpow_right₀ (by norm_num) (by omega)
      _ ≤ roundBinary p y := (roundBinary_bounds p hp y hy).1

/-- A rounded positive number is a fixed point of the rounding. -/
theorem roundBinary_idem_pos (p : ℕ) (hp : 1 ≤ p) (x : ℚ) (hx : 0 < x) :
    roundBinary p (roundBinary p x) = roundBinary p x := by
  obtain ⟨hl, hu, nlo, nhi⟩ := roundBinary_bounds p hp x hx
  have hv : 0 < roundBinary p x := roundBinary_pos p hp x hx
  have hs : (0 : ℚ) < 2 ^ (ilog2 x - ((p : ℤ) - 1)) := two_zpow_pos _
  have hval := roundBinary_of_ne p x hx.ne'
  rcases eq_or_lt_of_le nhi with htop | hlt
  · -- the mantissa carried into the next binade
    have hv2 : roundBinary p x = 2 ^ (ilog2 x + 1) := by
      rw [hval, htop]
      push_cast
      rw [← zpow_natCast, ← zpow_add₀ (by norm_num)]
      congr 1
      ring
    have he : ilog2 (roundBinary p x) = ilog2 x + 1 := by
      apply ilog2_eq
      · rw [hv2]
      · rw [hv2]
        exact (zpow_lt_zpow_iff_right₀ (by norm_num : (1 : ℚ) < 2)).mpr (by omega)
    rw [roundBinary_of_ne p _ hv.ne', he]
    have hq : roundBinary p x / 2 ^ (ilog2 x + 1 - ((p : ℤ) - 1)) =
        (((2 : ℤ) ^ (p - 1) : ℤ) : ℚ) := by
      rw [hv2, ← zpow_sub₀ (by norm_num)]
      push_cast
      rw [← zpow_natCast]
      congr 1
      have : ((p - 1 : ℕ) : ℤ) = (p : ℤ) - 1 := by omega
      rw [this]
      ring
    rw [hq, rne_intCast, hv2]
    push_cast
    rw [← zpow_natCast, ← zpow_add₀ (by norm_num)]
    congr 1
    have : ((p - 1 : ℕ) : ℤ) = (p : ℤ) - 1 := by omega
    rw [this]
    ring
  · have hu' : roundBinary p x < 2 ^ (ilog2 x + 1) := by
      have e2 : (2 : ℚ) ^ (ilog2 x + 1) =
          (((2 : ℤ) ^ p : ℤ) : ℚ) * 2 ^ (ilog2 x - ((p : ℤ) - 1)) := by
        push_cast
        rw [← zpow_natCast, ← zpow_add₀ (by norm_num)]
        congr 1
        ring
      rw [hval, e2]
      exact mul_lt_mul_of_pos_right (by exact_mod_cast hlt) hs
    have he : ilog2 (roundBinary p x) = ilog2 x := ilog2_eq _ _ hl hu'
    rw [roundBinary_of_ne p _ hv.ne', he]
    have hq : roundBinary p x / 2 ^ (ilog2 x - ((p : ℤ) - 1)) =
        ((rne (x / 2 ^ (ilog2 x - ((p : ℤ) - 1))) : ℤ) : ℚ) := by
      rw [hval]
      field_simp
    rw [hq, rne_intCast, ← hval]

theorem toDouble_zero : toDouble 0 = 0 := roundBinary_zero 53

theorem toFloat_zero : toFloat 0 = 0 := roundBinary_zero 24

theorem toDouble_pos (x : ℚ) (hx : 0 < x) : 0 < toDouble x :=
  roundBinary_pos 53 (by norm_num) x hx

theorem toDouble_nonneg (x : ℚ) (hx : 0 ≤ x) : 0 ≤ toDouble x :=
  roundBinary_nonneg 53 (by norm_num) x hx

theorem toDouble_nonpos (x : ℚ) (hx : x ≤ 0) : toDouble x ≤ 0 :=
  roundBinary_nonpos 53 x hx

theorem toDouble_idem_of_nonneg (x : ℚ) (hx : 0 ≤ x) : toDouble (toDouble x) = toDouble x := by
  rcases eq_or_lt_of_le hx with h | h
  · rw [← h, toDouble_zero, toDouble_zero]
  · exact roundBinary_idem_pos 53 (by norm_num) x h

theorem toDouble_mono_of_nonneg (x y : ℚ) (hx : 0 ≤ x) (hxy : x ≤ y) :
    toDouble x ≤ toDouble y := by
  rcases eq_or_lt_of_le hx with h | h
  · rw [← h, toDouble_zero]
    exact toDouble_nonneg y (le_trans hx hxy)
  · exact roundBinary_mono_pos 53 (by norm_num) x y h hxy

/-- A double addition of a non-negative amount to a non-negative double gives a
non-negative double that is not below the first operand. -/
theorem dadd_ge (x t : ℚ) (hx : 0 ≤ x) (hd : toDouble x = x) (ht : 0 ≤ t) :
    x ≤ dadd x t ∧ 0 ≤ dadd x t ∧ toDouble (dadd x t) = dadd x t := by
  have htd : 0 ≤ toDouble t := toDouble_nonneg t ht
  have hsum : 0 ≤ toDouble x + toDouble t := by
    rw [hd]
    exact add_nonneg hx htd
  have h1 : x ≤ dadd x t := by
    have h := toDouble_mono_of_nonneg x (toDouble x + toDouble t) hx (by rw [hd]; linarith)
    rw [hd] at h
    unfold dadd
    rw [hd]
    exact h
  exact ⟨h1, le_trans hx h1, toDouble_idem_of_nonneg _ hsum⟩

theorem clockAfter_succ (T : ℚ) (n : ℕ) (t : ℚ) :
    clockAfter T (n + 1) t = dadd (clockAfter T n t) T := by
  induction n generalizing t with
  | zero => rfl
  | succ n ih =>
    show clockAfter T (n + 1) (dadd t T) = dadd (clockAfter T (n + 1) t) T
    rw [ih (dadd t T)]
    rfl

/-- From a non-negative double, with a non-negative time step, every clock value
is a non-negative double and the clock never goes back. -/
theorem clockAfter_invariant (T t : ℚ) (hT : 0 ≤ T) (ht : 0 ≤ t) (hd : toDouble t = t)
    (n : ℕ) :
    0 ≤ clockAfter T n t ∧ toDouble (clockAfter T n t) = clockAfter T n t ∧
      clockAfter T n t ≤ clockAfter T (n + 1) t := by
  induction n with
  | zero =>
    obtain ⟨h1, -, -⟩ := dadd_ge t T ht hd hT
    exact ⟨ht, hd, h1⟩
  | succ n ih =>
    obtain ⟨i0, i1, -⟩ := ih
    obtain ⟨h1, h2, h3⟩ := dadd_ge (clockAfter T n t) T i0 i1 hT
    rw [← clockAfter_succ] at h1 h2 h3
    obtain ⟨g1, -, -⟩ := dadd_ge (clockAfter T (n + 1) t) T h2 h3 hT
    rw [← clockAfter_succ] at g1
    exact ⟨h2, h3, g1⟩

theorem clockAfter_mono (T t : ℚ) (hT : 0 ≤ T) (ht : 0 ≤ t) (hd : toDouble t = t)
    (m n : ℕ) (hmn : m ≤ n) : clockAfter T m t ≤ clockAfter T n t := by
  induction n with
  | zero =>
    have : m = 0 := by omega
    rw [this]
  | succ n ih =>
    rcases Nat.lt_or_ge m (n + 1) with h | h
    · exact le_trans (ih (by omega)) (clockAfter_invariant T t hT ht hd n).2.2
    · have : m = n + 1 := by omega
      rw [this]

/-! ### The integer form of the rounding -/

theorem rne_natCast_div (M D : ℕ) (hD : 0 < D) :
    rne ((M : ℚ) / D) =
      if 2 * (M % D) < D then ((M / D : ℕ) : ℤ)
      else if D < 2 * (M % D) then ((M / D : ℕ) : ℤ) + 1
      else if M / D % 2 = 0 then ((M / D : ℕ) : ℤ) else ((M / D : ℕ) : ℤ) + 1 := by
  have hDq : (0 : ℚ) < (D : ℚ) := by exact_mod_cast hD
  have hfl : ⌊(M : ℚ) / D⌋ = ((M / D : ℕ) : ℤ) := by
    rw [Rat.floor_natCast_div_natCast]
    rfl
  have hsplit : (M : ℚ) = (D : ℚ) * ((M / D : ℕ) : ℚ) + ((M % D : ℕ) : ℚ) := by
    exact_mod_cast (Nat.div_add_mod M D).symm
  have hfrac : (M : ℚ) / D - (((M / D : ℕ) : ℤ) : ℚ) = ((M % D : ℕ) : ℚ) / D := by
    rw [Int.cast_natCast]
    field_simp
    linarith
  have hlt : ((M % D : ℕ) : ℚ) / D < 1 / 2 ↔ 2 * (M % D) < D := by
    rw [div_lt_div_iff₀ hDq (by norm_num)]
    constructor
    · intro h
      have : ((2 * (M % D) : ℕ) : ℚ) < (D : ℚ) := by push_cast; linarith
      exact_mod_cast this
    · intro h
      have : ((2 * (M % D) : ℕ) : ℚ) < (D : ℚ) := by exact_mod_cast h
      push_cast at this
      linarith
  have hgt : (1 : ℚ) / 2 < ((M % D : ℕ) : ℚ) / D ↔ D < 2 * (M % D) := by
    rw [div_lt_div_iff₀ (by norm_num) hDq]
    constructor
    · intro h
      have : (D : ℚ) < ((2 * (M % D) : ℕ) : ℚ) := by push_cast; linarith
      exact_mod_cast this
    · intro h
      have : (D : ℚ) < ((2 * (M % D) : ℕ) : ℚ) := by exact_mod_cast h
      push_cast at this
      linarith
  have hpar : ((M / D : ℕ) : ℤ) % 2 = 0 ↔ M / D % 2 = 0 := by omega
  unfold rne
  rw [hfl, hfrac]
  simp only [hlt, hgt, hpar]

theorem roundBinary_natCast_div (p : ℕ) (hp : 1 ≤ p) (M k : ℕ) (hM : 2 ^ (p - 1) ≤ M) :
    roundBinary p ((M : ℚ) / 2 ^ k) = (roundNat p M : ℚ) / 2 ^ k := by
  have hM1 : 1 ≤ M := le_trans Nat.one_le_two_pow hM
  obtain ⟨l, u⟩ := natLog2_spec M hM1
  have hL : p - 1 < natLog2 M + 1 :=
    (Nat.pow_lt_pow_iff_right (by norm_num : 1 < 2)).mp (lt_of_le_of_lt hM u)
  have hMq : (0 : ℚ) < (M : ℚ) := by exact_mod_cast hM1
  have h2k : (0 : ℚ) < (2 : ℚ) ^ k := by positivity
  have hx : (0 : ℚ) < (M : ℚ) / 2 ^ k := div_pos hMq h2k
  have lq : (2 : ℚ) ^ natLog2 M ≤ (M : ℚ) := by exact_mod_cast l
  have uq : (M : ℚ) < 2 ^ (natLog2 M + 1) := by exact_mod_cast u
  have hlog : ilog2 ((M : ℚ) / 2 ^ k) = (natLog2 M : ℤ) - (k : ℤ) := by
    apply ilog2_eq
    · rw [zpow_sub₀ (by norm_num), zpow_natCast, zpow_natCast]
      exact div_le_div_of_nonneg_right lq h2k.le
    · have : (natLog2 M : ℤ) - (k : ℤ) + 1 = ((natLog2 M + 1 : ℕ) : ℤ) - (k : ℤ) := by
        push_cast; ring
      rw [this, zpow_sub₀ (by norm_num), zpow_natCast, zpow_natCast]
      exact div_lt_div_of_pos_right uq h2k
  have hexp : (natLog2 M : ℤ) - (k : ℤ) - ((p : ℤ) - 1) =
      ((natLog2 M + 1 - p : ℕ) : ℤ) - (k : ℤ) := by omega
  have hscale : (2 : ℚ) ^ (((natLog2 M + 1 - p : ℕ) : ℤ) - (k : ℤ)) =
      2 ^ (natLog2 M + 1 - p) / 2 ^ k := by
    rw [zpow_sub₀ (by norm_num), zpow_natCast, zpow_natCast]
  rw [roundBinary_of_ne p _ hx.ne', hlog, hexp, hscale]
  have hs : (0 : ℚ) < (2 : ℚ) ^ (natLog2 M + 1 - p) := by positivity
  have harg : (M : ℚ) / 2 ^ k / (2 ^ (natLog2 M + 1 - p) / 2 ^ k) =
      (M : ℚ) / ((2 ^ (natLog2 M + 1 - p) : ℕ) : ℚ) := by
    push_cast
    field_simp
  rw [harg, rne_natCast_div M (2 ^ (natLog2 M + 1 - p)) (by positivity)]
  unfold roundNat
  generalize M / 2 ^ (natLog2 M + 1 - p) = q
  generalize M % 2 ^ (natLog2 M + 1 - p) = r
  generalize natLog2 M + 1 - p = s
  split_ifs <;> push_cast <;> ring

/-- One clock addition in units of `2^-k`. -/
theorem dadd_clockNum (T : ℚ) (S k N : ℕ) (hT : toDouble T = (S : ℚ) / 2 ^ k)
    (hS : 2 ^ 52 ≤ S) (hd : toDouble ((N : ℚ) / 2 ^ k) = (N : ℚ) / 2 ^ k) :
    dadd ((N : ℚ) / 2 ^ k) T = (roundNat 53 (N + S) : ℚ) / 2 ^ k := by
  unfold dadd
  rw [hd, hT, ← add_div, ← Nat.cast_add]
  exact roundBinary_natCast_div 53 (by norm_num) _ k (le_trans hS (Nat.le_add_left S N))

/-- The double clock is the integer clock, scaled. -/
theorem clockAfter_eq_clockNum (T : ℚ) (S k : ℕ) (hT : toDouble T = (S : ℚ) / 2 ^ k)
    (hS : 2 ^ 52 ≤ S) (n N : ℕ) (hd : toDouble ((N : ℚ) / 2 ^ k) = (N : ℚ) / 2 ^ k) :
    clockAfter T n ((N : ℚ) / 2 ^ k) = (clockNum S n N : ℚ) / 2 ^ k := by
  induction n generalizing N with
  | zero => rfl
  | succ n ih =>
    show clockAfter T n (dadd ((N : ℚ) / 2 ^ k) T) = _
    have hstep := dadd_clockNum T S k N hT hS hd
    have hdbl : toDouble (dadd ((N : ℚ) / 2 ^ k) T) = dadd ((N : ℚ) / 2 ^ k) T := by
      unfold dadd
      exact toDouble_idem_of_nonneg _
        (add_nonneg (by rw [hd]; positivity) (by rw [hT]; positivity))
    rw [hstep] at hdbl ⊢
    exact ih _ hdbl

theorem clockAfter_zero_eq_clockNum (T : ℚ) (S k : ℕ) (hT : toDouble T = (S : ℚ) / 2 ^ k)
    (hS : 2 ^ 52 ≤ S) (n : ℕ) :
    clockAfter T n 0 = (clockNum S n 0 : ℚ) / 2 ^ k := by
  have h := clockAfter_eq_clockNum T S k hT hS n 0
    (by rw [Nat.cast_zero, zero_div]; exact toDouble_zero)
  rw [Nat.cast_zero, zero_div] at h
  exact h

theorem runsExactlyNum_sound (S tmax n N : ℕ) (h : runsExactlyNum S tmax n N = true) :
    (∀ m : ℕ, m < n → clockNum S m N < tmax) ∧ tmax ≤ clockNum S n N := by
  induction n generalizing N with
  | zero =>
    simp only [runsExactlyNum, decide_eq_true_eq] at h
    exact ⟨fun m hm => by omega, h⟩
  | succ n ih =>
    simp only [runsExactlyNum, Bool.and_eq_true, decide_eq_true_eq] at h
    obtain ⟨h1, h2⟩ := ih _ h.2
    refine ⟨?_, h2⟩
    intro m hm
    cases m with
    | zero => exact h.1
    | succ m => exact h1 m (by omega)

/-- The double nearest to 0.0001 in units of `2^-66`. -/
theorem toDouble_step : toDouble 0.0001 = ((7378697629483821 : ℕ) : ℚ) / 2 ^ 66 := by
  decide!

/-- A run of the clock read off its integer form: if the end time `x` is stored as
`X * 2^-66` and the integer clock is below `X` before each of `n` additions and at
or past it after them, so is the double clock with the stored end time. -/
theorem clock_runs_of_num (x : ℚ) (X n : ℕ) (hx : toDouble x = (X : ℚ) / 2 ^ 66)
    (h : runsExactlyNum 7378697629483821 X n 0 = true) :
    (∀ m : ℕ, m < n → clockAfter 0.0001 m 0 < toDouble x) ∧
      toDouble x ≤ clockAfter 0.0001 n 0 := by
  obtain ⟨h1, h2⟩ := runsExactlyNum_sound _ _ _ _ h
  constructor
  · intro m hm
    rw [clockAfter_zero_eq_clockNum 0.0001 7378697629483821 66 toDouble_step (by norm_num), hx]
    exact div_lt_div_of_pos_right (by exact_mod_cast h1 m hm) (by positivity)
  · rw [clockAfter_zero_eq_clockNum 0.0001 7378697629483821 66 toDouble_step (by norm_num), hx]
    exact div_le_div_of_nonneg_right (by exact_mod_cast h2) (by positivity)

/-! ## Basic facts about `runStep` and `run` -/

theorem iterBody_iterations (c : AnalogCircuit) (voltage timestep : ℚ) (s : SolverState) :
    (c.iterBody voltage timestep s).iterations = s.iterations + 1 := rfl

theorem fabs_eq_abs (x : ℚ) : fabs x = |x| := by
  unfold fabs
  split_ifs with h
  · exact (abs_of_neg h).symm
  · exact (abs_of_nonneg (not_lt.mp h)).symm

theorem runStep_done (sn : ℚ → ℚ) (c : AnalogCircuit) (h : c.timeMax ≤ c.currentTime) :
    c.runStep sn = (false, { c with simulationComplete := true, simulationRunning := false }) := by
  simp [AnalogCircuit.runStep, h]

theorem runStep_fst (sn : ℚ → ℚ) (c : AnalogCircuit) :
    (c.runStep sn).1 = decide (c.currentTime < c.timeMax) := by
  by_cases h : c.timeMax ≤ c.currentTime
  · simp [AnalogCircuit.runStep, h]
  · simp [AnalogCircuit.runStep, h, not_le.mp h]

theorem runStep_fst_true_iff (sn : ℚ → ℚ) (c : AnalogCircuit) :
    (c.runStep sn).1 = true ↔ c.currentTime < c.timeMax := by
  rw [runStep_fst]
  simp

theorem runStep_fst_false_iff (sn : ℚ → ℚ) (c : AnalogCircuit) :
    (c.runStep sn).1 = false ↔ c.timeMax ≤ c.currentTime := by
  rw [runStep_fst]
  simp

theorem runStep_sameRun_of_done (sn : ℚ → ℚ) (c : AnalogCircuit)
    (h : c.timeMax ≤ c.currentTime) : sameRun c (c.runStep sn).2 := by
  simp [runStep_done sn c h, sameRun]

theorem runStep_timeMax (sn : ℚ → ℚ) (c : AnalogCircuit) :
    (c.runStep sn).2.timeMax = c.timeMax := by
  by_cases h : c.timeMax ≤ c.currentTime <;> simp [AnalogCircuit.runStep, h]

theorem runStep_T (sn : ℚ → ℚ) (c : AnalogCircuit) : (c.runStep sn).2.T = c.T := by
  by_cases h : c.timeMax ≤ c.currentTime <;> simp [AnalogCircuit.runStep, h]

theorem runStep_time_of_lt (sn : ℚ → ℚ) (c : AnalogCircuit) (h : c.currentTime < c.timeMax) :
    (c.runStep sn).2.currentTime = dadd c.currentTime c.T := by
  simp [AnalogCircuit.runStep, not_le.mpr h]

theorem runStep_stamp_of_lt (sn : ℚ → ℚ) (c : AnalogCircuit) (h : c.currentTime < c.timeMax) :
    (c.runStep sn).2.timeHistory = c.timeHistory ++ [toFloat c.currentTime] := by
  simp [AnalogCircuit.runStep, not_le.mpr h]

theorem runStep_stepCount_of_lt (sn : ℚ → ℚ) (c : AnalogCircuit)
    (h : c.currentTime < c.timeMax) : (c.runStep sn).2.stepCount = c.stepCount + 1 := by
  simp [AnalogCircuit.runStep, not_le.mpr h]

theorem runStep_flags_of_lt (sn : ℚ → ℚ) (c : AnalogCircuit) (h : c.currentTime < c.timeMax) :
    (c.runStep sn).2.simulationRunning = c.simulationRunning ∧
    (c.runStep sn).2.simulationComplete = c.simulationComplete := by
  simp [AnalogCircuit.runStep, not_le.mpr h]

theorem runStep_appendsOne_of_lt (sn : ℚ → ℚ) (c : AnalogCircuit)
    (h : c.currentTime < c.timeMax) : appendsOne c (c.runStep sn).2 := by
  simp [AnalogCircuit.runStep, not_le.mpr h, appendsOne]

theorem sameRun_trans {a b c : AnalogCircuit} (h₁ : sameRun a b) (h₂ : sameRun b c) :
    sameRun a c := by
  obtain ⟨a1, a2, a3, a4, a5, a6, a7, a8, a9, a10⟩ := h₁
  obtain ⟨b1, b2, b3, b4, b5, b6, b7, b8, b9, b10⟩ := h₂
  exact ⟨b1.trans a1, b2.trans a2, b3.trans a3, b4.trans a4, b5.trans a5, b6.trans a6,
    b7.trans a7, b8.trans a8, b9.trans a9, b10.trans a10⟩

theorem sameRun_refl (a : AnalogCircuit) : sameRun a a := by
  simp [sameRun]

theorem runSteps_succ (sn : ℚ → ℚ) (n : ℕ) (c : AnalogCircuit) :
    c.runSteps sn (n + 1) = ((c.runSteps sn n).runStep sn).2 := rfl

theorem runSteps_timeMax (sn : ℚ → ℚ) (n : ℕ) (c : AnalogCircuit) :
    (c.runSteps sn n).timeMax = c.timeMax := by
  induction n with
  | zero => rfl
  | succ n ih => rw [runSteps_succ, runStep_timeMax, ih]

theorem runStep_freq_Vpeak (sn : ℚ → ℚ) (c : AnalogCircuit) :
    (c.runStep sn).2.freq = c.freq ∧ (c.runStep sn).2.Vpeak = c.Vpeak := by
  by_cases h : c.timeMax ≤ c.currentTime <;> simp [AnalogCircuit.runStep, h]

theorem runSteps_freq_Vpeak (sn : ℚ → ℚ) (n : ℕ) (c : AnalogCircuit) :
    (c.runSteps sn n).freq = c.freq ∧ (c.runSteps sn n).Vpeak = c.Vpeak := by
  induction n with
  | zero => exact ⟨rfl, rfl⟩
  | succ n ih =>
    rw [runSteps_succ, (runStep_freq_Vpeak sn _).1, (runStep_freq_Vpeak sn _).2]
    exact ih

theorem runSteps_T (sn : ℚ → ℚ) (n : ℕ) (c : AnalogCircuit) : (c.runSteps sn n).T = c.T := by
  induction n with
  | zero => rfl
  | succ n ih => rw [runSteps_succ, runStep_T, ih]

/-- Once the clock has reached `timeMax`, any number of further calls leaves the
run untouched. -/
theorem runSteps_sameRun_of_done (sn : ℚ → ℚ) (c : AnalogCircuit)
    (h : c.timeMax ≤ c.currentTime) (n : ℕ) : sameRun c (c.runSteps sn n) := by
  induction n with
  | zero => exact sameRun_refl c
  | succ n ih =>
    rw [runSteps_succ]
    refine sameRun_trans ih (runStep_sameRun_of_done sn _ ?_)
    rw [runSteps_timeMax, ih.2.2.2.2.2.1]
    exact h

theorem runSteps_add (sn : ℚ → ℚ) (a b : ℕ) (c : AnalogCircuit) :
    c.runSteps sn (a + b) = (c.runSteps sn a).runSteps sn b := by
  induction b with
  | zero => rfl
  | succ b ih => rw [← Nat.add_assoc, runSteps_succ, runSteps_succ, ih]

/-- A freshly built circuit with a positive end time has its clock below the end
time. -/
theorem fresh_clock_lt (R L C f Vp simTime : ℚ) (h : 0 < simTime) :
    (AnalogCircuit.fresh R L C f Vp simTime).currentTime <
      (AnalogCircuit.fresh R L C f Vp simTime).timeMax :=
  toDouble_pos simTime h

/-- The first clock value after 0: the double nearest to 0.0001. -/
theorem dadd_zero_step : dadd 0 0.0001 = 7378697629483821 / 73786976294838206464 := by
  decide!

/-- While every earlier clock value is below `timeMax`, `k` calls advance the
clock by `k` double additions of `T` and the step count by `k`. -/
theorem runSteps_progress (sn : ℚ → ℚ) (c : AnalogCircuit) (k : ℕ)
    (h : ∀ m : ℕ, m < k → clockAfter c.T m c.currentTime < c.timeMax) :
    (c.runSteps sn k).currentTime = clockAfter c.T k c.currentTime ∧
      (c.runSteps sn k).stepCount = c.stepCount + k := by
  induction k with
  | zero => simp [AnalogCircuit.runSteps, clockAfter]
  | succ k ih =>
    obtain ⟨ht, hc⟩ := ih (fun m hm => h m (Nat.lt_succ_of_lt hm))
    have hlt : (c.runSteps sn k).currentTime < (c.runSteps sn k).timeMax := by
      rw [runSteps_timeMax, ht]
      exact h k (Nat.lt_succ_self k)
    rw [runSteps_succ, runStep_time_of_lt sn _ hlt, runStep_stepCount_of_lt sn _ hlt, ht, hc,
      runSteps_T, clockAfter_succ]
    exact ⟨rfl, by omega⟩

/-- Performed steps do not touch the two state flags. -/
theorem runSteps_flags (sn : ℚ → ℚ) (c : AnalogCircuit) (k : ℕ)
    (h : ∀ m : ℕ, m < k → clockAfter c.T m c.currentTime < c.timeMax) :
    (c.runSteps sn k).simulationRunning = c.simulationRunning ∧
      (c.runSteps sn k).simulationComplete = c.simulationComplete := by
  induction k with
  | zero => exact ⟨rfl, rfl⟩
  | succ k ih =>
    have hk := ih (fun m hm => h m (Nat.lt_succ_of_lt hm))
    have hlt : (c.runSteps sn k).currentTime < (c.runSteps sn k).timeMax := by
      rw [runSteps_timeMax, (runSteps_progress sn c k (fun m hm => h m (Nat.lt_succ_of_lt hm))).1]
      exact h k (Nat.lt_succ_self k)
    rw [runSteps_succ, (runStep_flags_of_lt sn _ hlt).1, (runStep_flags_of_lt sn _ hlt).2]
    exact hk

/-- The number of performed steps of a run: if the clock is below `timeMax` before
each of the first `n` additions and has reached it after them, call `k` performs
a step exactly when `k < n`, and after `k` calls the step count has grown by
`min k n`. -/
theorem runSteps_step_count (sn : ℚ → ℚ) (c : AnalogCircuit) (n : ℕ)
    (hn : c.timeMax ≤ clockAfter c.T n c.currentTime)
    (hmin : ∀ m : ℕ, m < n → clockAfter c.T m c.currentTime < c.timeMax) (k : ℕ) :
    (((c.runSteps sn k).runStep sn).1 = true ↔ k < n) ∧
      (c.runSteps sn k).stepCount = c.stepCount + min k n := by
  rcases Nat.lt_or_ge k n with hk | hk
  · obtain ⟨ht, hc⟩ := runSteps_progress sn c k (fun m hm => hmin m (lt_trans hm hk))
    refine ⟨?_, ?_⟩
    · rw [runStep_fst_true_iff, runSteps_timeMax, ht]
      exact ⟨fun _ => hk, fun _ => hmin k hk⟩
    · rw [hc, Nat.min_eq_left hk.le]
  · obtain ⟨ht, hc⟩ := runSteps_progress sn c n hmin
    have hdone : (c.runSteps sn n).timeMax ≤ (c.runSteps sn n).currentTime := by
      rw [runSteps_timeMax, ht]
      exact hn
    have hsame := runSteps_sameRun_of_done sn (c.runSteps sn n) hdone (k - n)
    rw [← runSteps_add, Nat.add_sub_cancel' hk] at hsame
    refine ⟨?_, ?_⟩
    · rw [runStep_fst_true_iff, runSteps_timeMax, hsame.2.2.2.2.2.1, ← runSteps_timeMax sn n c]
      exact ⟨fun h => absurd h (not_lt.mpr hdone), fun h => absurd h (not_lt.mpr hk)⟩
    · rw [hsame.2.2.2.2.2.2.1, hc, Nat.min_eq_right hk]

/-- The step count of a freshly built circuit, whose clock starts at 0 and whose
time step is 0.0001. -/
theorem fresh_step_count (sn : ℚ → ℚ) (R L C f Vp simTime : ℚ) (n : ℕ)
    (hn : toDouble simTime ≤ clockAfter 0.0001 n 0)
    (hmin : ∀ m : ℕ, m < n → clockAfter 0.0001 m 0 < toDouble simTime) (k : ℕ) :
    ((((AnalogCircuit.fresh R L C f Vp simTime).runSteps sn k).runStep sn).1 = true ↔ k < n) ∧
      ((AnalogCircuit.fresh R L C f Vp simTime).runSteps sn k).stepCount = min k n := by
  have h := runSteps_step_count sn (AnalogCircuit.fresh R L C f Vp simTime) n hn hmin k
  refine ⟨h.1, ?_⟩
  rw [h.2]
  exact Nat.zero_add _

/-- Call number `n` (the first after the `n` performed steps) returns `false` and
changes nothing of the run. -/
theorem fresh_call_after_last (sn : ℚ → ℚ) (R L C f Vp simTime : ℚ) (n : ℕ)
    (hn : toDouble simTime ≤ clockAfter 0.0001 n 0)
    (hmin : ∀ m : ℕ, m < n → clockAfter 0.0001 m 0 < toDouble simTime) :
    (((AnalogCircuit.fresh R L C f Vp simTime).runSteps sn n).runStep sn).1 = false ∧
      sameRun ((AnalogCircuit.fresh R L C f Vp simTime).runSteps sn n)
        (((AnalogCircuit.fresh R L C f Vp simTime).runSteps sn n).runStep sn).2 := by
  have h := (fresh_step_count sn R L C f Vp simTime n hn hmin n).1
  have hdone : ((AnalogCircuit.fresh R L C f Vp simTime).runSteps sn n).timeMax ≤
      ((AnalogCircuit.fresh R L C f Vp simTime).runSteps sn n).currentTime := by
    by_contra hc
    exact lt_irrefl n (h.1 ((runStep_fst_true_iff sn _).2 (not_le.mp hc)))
  exact ⟨(runStep_fst_false_iff sn _).2 hdone, runStep_sameRun_of_done sn _ hdone⟩

/-! ### The clock of two scenarios, by evaluation -/

/-- The double nearest to 0.1 in units of `2^-66`. -/
theorem toDouble_default_end :
    toDouble 0.1 = ((7378697629483821056 : ℕ) : ℚ) / 2 ^ 66 := by
  decide!

/-- With end time 0.1 the double clock, in units of `2^-66`, is below the end time
before each of the first 1000 additions of 0.0001 and has reached it after
them. -/
theorem default_clock_runs_1000 :
    runsExactlyNum 7378697629483821 7378697629483821056 1000 0 = true := by
  decide!

theorem default_clock_below (m : ℕ) (hm : m < 1000) :
    clockAfter 0.0001 m 0 < toDouble 0.1 :=
  (clock_runs_of_num 0.1 _ 1000 toDouble_default_end default_clock_runs_1000).1 m hm

theorem default_clock_reached : toDouble 0.1 ≤ clockAfter 0.0001 1000 0 :=
  (clock_runs_of_num 0.1 _ 1000 toDouble_default_end default_clock_runs_1000).2

/-- The double nearest to 0.003 in units of `2^-66`. -/
theorem toDouble_short_end :
    toDouble 0.003 = ((221360928884514624 : ℕ) : ℚ) / 2 ^ 66 := by
  decide!

/-- With end time 0.003 the double clock needs 31 additions of 0.0001 to reach the
end time: after 30 additions it is still below it. -/
theorem short_clock_runs_31 :
    runsExactlyNum 7378697629483821 221360928884514624 31 0 = true := by
  decide!

/-- Claim C3, counterexample. For simTime = 0.003 the least `n` with
`n * T >= simTime` is 30 - for the decimal values, for the stored doubles and for
the double product alike - yet call number 30, the 31st, still performs a step:
the clock after 30 additions is below the end time. 31 steps are performed, and
call number 31 performs none. -/
theorem short_run_performs_31_steps :
    (∀ m : ℕ, m < 30 → (m : ℚ) * 0.0001 < 0.003) ∧
    (0.003 : ℚ) ≤ ((30 : ℕ) : ℚ) * 0.0001 ∧
    toDouble 0.003 ≤ ((30 : ℕ) : ℚ) * toDouble 0.0001 ∧
    toDouble 0.003 ≤ dmul 30 0.0001 ∧
    (((AnalogCircuit.fresh 20 0.05 0.00007 50 10 0.003).runSteps sinPoly 30).runStep
      sinPoly).1 = true ∧
    (((AnalogCircuit.fresh 20 0.05 0.00007 50 10 0.003).runSteps sinPoly 31).runStep
      sinPoly).1 = false ∧
    ((AnalogCircuit.fresh 20 0.05 0.00007 50 10 0.003).runSteps sinPoly 31).stepCount = 31 := by
  obtain ⟨hmin, hn⟩ := clock_runs_of_num 0.003 _ 31 toDouble_short_end short_clock_runs_31
  refine ⟨?_, by norm_num, by decide!, by decide!, ?_,
    (fresh_call_after_last sinPoly 20 0.05 0.00007 50 10 0.003 31 hn hmin).1, ?_⟩
  · intro m hm
    have h : (m : ℚ) < 30 := by exact_mod_cast hm
    norm_num
    linarith
  · exact ((fresh_step_count sinPoly 20 0.05 0.00007 50 10 0.003 31 hn hmin 30).1).2
      (by norm_num)
  · exact (fresh_step_count sinPoly 20 0.05 0.00007 50 10 0.003 31 hn hmin 31).2

/-- Claim C3, amended. In the scenario R=20, L=0.05, C=0.00007, freq=50, Vpeak=10,
simTime=0.1 exactly 1000 steps are performed: each of the first 1000 calls of
`runStep` on the fresh circuit returns `true` and appends one entry to each
history sequence, and the 1001st call returns `false` and performs no step. In
general the number of performed steps is the least `n` for which the clock after
`n` double additions of `T = 0.0001` to 0 has reached the stored end time: call
number `k` (from 0) performs a step exactly when `k < n`, and the step count
stays at `n`. -/
theorem default_scenario_performs_1000_steps (sn : ℚ → ℚ) :
    (∀ k < 1000,
      (((AnalogCircuit.fresh 20 0.05 0.00007 50 10 0.1).runSteps sn k).runStep sn).1 = true ∧
      appendsOne ((AnalogCircuit.fresh 20 0.05 0.00007 50 10 0.1).runSteps sn k)
        ((AnalogCircuit.fresh 20 0.05 0.00007 50 10 0.1).runSteps sn (k + 1))) ∧
    (((AnalogCircuit.fresh 20 0.05 0.00007 50 10 0.1).runSteps sn 1000).runStep sn).1 = false ∧
    sameRun ((AnalogCircuit.fresh 20 0.05 0.00007 50 10 0.1).runSteps sn 1000)
      (((AnalogCircuit.fresh 20 0.05 0.00007 50 10 0.1).runSteps sn 1000).runStep sn).2 ∧
    (∀ (R L C f Vp simTime : ℚ) (n : ℕ), toDouble simTime ≤ clockAfter 0.0001 n 0 →
      (∀ m : ℕ, m < n → clockAfter 0.0001 m 0 < toDouble simTime) → ∀ k : ℕ,
        ((((AnalogCircuit.fresh R L C f Vp simTime).runSteps sn k).runStep sn).1 = true ↔ k < n) ∧
        ((AnalogCircuit.fresh R L C f Vp simTime).runSteps sn k).stepCount = min k n) := by
  have key := fresh_step_count sn 20 0.05 0.00007 50 10 0.1 1000 default_clock_reached
    default_clock_below
  refine ⟨?_, ?_, ?_, ?_⟩
  · intro k hk
    have htrue := ((key k).1).2 hk
    refine ⟨htrue, ?_⟩
    rw [runSteps_succ]
    exact runStep_appendsOne_of_lt sn _ ((runStep_fst_true_iff sn _).1 htrue)
  · exact (fresh_call_after_last sn 20 0.05 0.00007 50 10 0.1 1000 default_clock_reached
      default_clock_below).1
  · exact (fresh_call_after_last sn 20 0.05 0.00007 50 10 0.1 1000 default_clock_reached
      default_clock_below).2
  · intro R L C f Vp simTime n hle hmin k
    exact fresh_step_count sn R L C f Vp simTime n hle hmin k

/-- Witness for C3: the general part at simTime = 0.1 and n = 1000, read off after
1005 calls. -/
theorem default_scenario_performs_1000_steps_witness :
    toDouble 0.1 ≤ clockAfter 0.0001 1000 0 ∧
      ((AnalogCircuit.fresh 20 0.05 0.00007 50 10 0.1).runSteps sinPoly 1005).stepCount
        = min 1005 1000 :=
  ⟨default_clock_reached,
    ((default_scenario_performs_1000_steps sinPoly).2.2.2 20 0.05 0.00007 50 10 0.1 1000
      default_clock_reached default_clock_below 1005).2⟩

/-! ## Stepping a finished or a not yet started circuit -/

/-- Claim C4. Once `currentTime >= timeMax`, every further call of `runStep`
returns `false`, and after any number of calls the five history sequences, the
clock, the step count, the accepted current and the capacitor and inductor
states are what they were. -/
theorem runStep_after_end_is_noop (sn : ℚ → ℚ) (c : AnalogCircuit)
    (h : c.timeMax ≤ c.currentTime) (n : ℕ) :
    ((c.runSteps sn n).runStep sn).1 = false ∧
      sameRun c ((c.runSteps sn n).runStep sn).2 := by
  have hs := runSteps_sameRun_of_done sn c h n
  have hdone : (c.runSteps sn n).timeMax ≤ (c.runSteps sn n).currentTime := by
    rw [runSteps_timeMax, hs.2.2.2.2.2.1]
    exact h
  constructor
  · rw [runStep_fst]
    simpa using hdone
  · exact sameRun_trans hs (runStep_sameRun_of_done sn _ hdone)

/-- Witness for C4: a circuit built with end time 0 is finished from the start;
it is stepped four times. -/
theorem runStep_after_end_is_noop_witness :
    (((AnalogCircuit.fresh 20 0.05 0.00007 50 10 0).runSteps sinPoly 3).runStep sinPoly).1
        = false ∧
      sameRun (AnalogCircuit.fresh 20 0.05 0.00007 50 10 0)
        (((AnalogCircuit.fresh 20 0.05 0.00007 50 10 0).runSteps sinPoly 3).runStep sinPoly).2 :=
  runStep_after_end_is_noop sinPoly (AnalogCircuit.fresh 20 0.05 0.00007 50 10 0)
    (show toDouble 0 ≤ (0 : ℚ) from le_of_eq toDouble_zero) 3

/-- Claim C9, counterexample. The default circuit, built and never started, is
stepped all the same: the call returns `true`, the step count becomes 1 and the
clock leaves 0 for the double nearest to 0.0001. -/
theorem runStep_steps_unstarted_circuit :
    (AnalogCircuit.fresh 20 0.05 0.00007 50 10 0.1).simulationRunning = false ∧
    (AnalogCircuit.fresh 20 0.05 0.00007 50 10 0.1).simulationComplete = false ∧
    ((AnalogCircuit.fresh 20 0.05 0.00007 50 10 0.1).runStep sinPoly).1 = true ∧
    ((AnalogCircuit.fresh 20 0.05 0.00007 50 10 0.1).runStep sinPoly).2.stepCount = 1 ∧
    ((AnalogCircuit.fresh 20 0.05 0.00007 50 10 0.1).runStep sinPoly).2.currentTime =
      7378697629483821 / 73786976294838206464 ∧
    ((AnalogCircuit.fresh 20 0.05 0.00007 50 10 0.1).runStep sinPoly).2.timeHistory = [0] := by
  have hlt : (AnalogCircuit.fresh 20 0.05 0.00007 50 10 0.1).currentTime <
      (AnalogCircuit.fresh 20 0.05 0.00007 50 10 0.1).timeMax :=
    fresh_clock_lt _ _ _ _ _ _ (by norm_num)
  refine ⟨rfl, rfl, (runStep_fst_true_iff _ _).2 hlt, ?_, ?_, ?_⟩
  · rw [runStep_stepCount_of_lt _ _ hlt]
    rfl
  · rw [runStep_time_of_lt _ _ hlt]
    exact dadd_zero_step
  · rw [(runStep_stamp_of_lt _ _ hlt)]
    show [toFloat 0] = [0]
    rw [toFloat_zero]

/-- Claim C9, amended. `runStep` never reads the running flag: on a circuit that
was built but not started it performs the step as soon as the clock is below
`timeMax`; it returns `true`, advances the clock by the double addition of `T`,
counts the step, appends one entry to every history and leaves both flags as
they were. -/
theorem runStep_ignores_running_flag (sn : ℚ → ℚ) (c : AnalogCircuit)
    (hrun : c.simulationRunning = false) (hcomp : c.simulationComplete = false)
    (hlt : c.currentTime < c.timeMax) :
    (c.runStep sn).1 = true ∧
    (c.runStep sn).2.currentTime = dadd c.currentTime c.T ∧
    (c.runStep sn).2.stepCount = c.stepCount + 1 ∧
    appendsOne c (c.runStep sn).2 ∧
    (c.runStep sn).2.simulationRunning = false ∧
    (c.runStep sn).2.simulationComplete = false := by
  refine ⟨(runStep_fst_true_iff sn c).2 hlt, runStep_time_of_lt sn c hlt,
    runStep_stepCount_of_lt sn c hlt, runStep_appendsOne_of_lt sn c hlt, ?_, ?_⟩
  · rw [(runStep_flags_of_lt sn c hlt).1, hrun]
  · rw [(runStep_flags_of_lt sn c hlt).2, hcomp]

/-- Witness for C9 (amended): the default circuit right after construction. -/
theorem runStep_ignores_running_flag_witness :
    (AnalogCircuit.fresh 20 0.05 0.00007 50 10 0.1).currentTime <
      (AnalogCircuit.fresh 20 0.05 0.00007 50 10 0.1).timeMax ∧
    ((AnalogCircuit.fresh 20 0.05 0.00007 50 10 0.1).runStep sinPoly).2.stepCount
      = (AnalogCircuit.fresh 20 0.05 0.00007 50 10 0.1).stepCount + 1 :=
  ⟨fresh_clock_lt _ _ _ _ _ _ (by norm_num),
    (runStep_ignores_running_flag sinPoly (AnalogCircuit.fresh 20 0.05 0.00007 50 10 0.1)
      rfl rfl (fresh_clock_lt _ _ _ _ _ _ (by norm_num))).2.2.1⟩

/-! ## Starting, finishing, constructing -/

/-- Claim C10, counterexample. After one performed step of the default circuit,
`run()` leaves the clock at the double nearest to 0.0001, the step count at 1 and
one entry in the time history: nothing is reset. -/
theorem run_does_not_reset :
    ((AnalogCircuit.fresh 20 0.05 0.00007 50 10 0.1).runStep sinPoly).2.run.currentTime
      = 7378697629483821 / 73786976294838206464 ∧
    ((AnalogCircuit.fresh 20 0.05 0.00007 50 10 0.1).runStep sinPoly).2.run.stepCount = 1 ∧
    ((AnalogCircuit.fresh 20 0.05 0.00007 50 10 0.1).runStep sinPoly).2.run.timeHistory
      = [0] := by
  have hlt : (AnalogCircuit.fresh 20 0.05 0.00007 50 10 0.1).currentTime <
      (AnalogCircuit.fresh 20 0.05 0.00007 50 10 0.1).timeMax :=
    fresh_clock_lt _ _ _ _ _ _ (by norm_num)
  refine ⟨?_, ?_, ?_⟩
  · show ((AnalogCircuit.fresh 20 0.05 0.00007 50 10 0.1).runStep sinPoly).2.currentTime = _
    rw [runStep_time_of_lt _ _ hlt]
    exact dadd_zero_step
  · show ((AnalogCircuit.fresh 20 0.05 0.00007 50 10 0.1).runStep sinPoly).2.stepCount = _
    rw [runStep_stepCount_of_lt _ _ hlt]
    rfl
  · show ((AnalogCircuit.fresh 20 0.05 0.00007 50 10 0.1).runStep sinPoly).2.timeHistory = _
    rw [(runStep_stamp_of_lt _ _ hlt)]
    show [toFloat 0] = [0]
    rw [toFloat_zero]

/-- Claim C10, amended. `run()` makes the circuit Running (running flags raised,
complete flags cleared) and changes nothing else: clock, step count, histories,
accepted current and component states stay as they are. On a freshly built
circuit, whose constructor has zeroed the clock and the step count and cleared
the histories, the state after `run()` is therefore clock 0, step count 0, empty
histories, Running. -/
theorem run_sets_flags_only :
    (∀ c : AnalogCircuit,
      c.run.simulationRunning = true ∧ c.run.simulationComplete = false ∧
      c.run.globalSimulationRunning = true ∧ c.run.globalSimulationComplete = false ∧
      sameRun c c.run ∧ c.run.fout = c.fout ∧ c.run.timeMax = c.timeMax ∧ c.run.T = c.T) ∧
    (∀ R L C f Vp simTime : ℚ,
      (AnalogCircuit.fresh R L C f Vp simTime).run.currentTime = 0 ∧
      (AnalogCircuit.fresh R L C f Vp simTime).run.stepCount = 0 ∧
      (AnalogCircuit.fresh R L C f Vp simTime).run.timeHistory = [] ∧
      (AnalogCircuit.fresh R L C f Vp simTime).run.inputHistory = [] ∧
      (AnalogCircuit.fresh R L C f Vp simTime).run.voltageHistory0 = [] ∧
      (AnalogCircuit.fresh R L C f Vp simTime).run.voltageHistory1 = [] ∧
      (AnalogCircuit.fresh R L C f Vp simTime).run.voltageHistory2 = [] ∧
      (AnalogCircuit.fresh R L C f Vp simTime).run.simulationRunning = true ∧
      (AnalogCircuit.fresh R L C f Vp simTime).run.simulationComplete = false) := by
  constructor
  · intro c
    simp [AnalogCircuit.run, sameRun]
  · intro R L C f Vp simTime
    simp [AnalogCircuit.run, AnalogCircuit.fresh]

/-- Claim C5, counterexample. In the default scenario the 1000th call performs the
last step and brings the clock to `timeMax`, yet it returns `true` and the
circuit is not Complete when it returns. -/
theorem last_step_returns_true :
    (((AnalogCircuit.fresh 20 0.05 0.00007 50 10 0.1).run.runSteps sinPoly 999).runStep
      sinPoly).1 = true ∧
    (((AnalogCircuit.fresh 20 0.05 0.00007 50 10 0.1).run.runSteps sinPoly 999).runStep
      sinPoly).2.currentTime ≥
      (((AnalogCircuit.fresh 20 0.05 0.00007 50 10 0.1).run.runSteps sinPoly 999).runStep
        sinPoly).2.timeMax ∧
    (((AnalogCircuit.fresh 20 0.05 0.00007 50 10 0.1).run.runSteps sinPoly 999).runStep
      sinPoly).2.simulationComplete = false ∧
    (((AnalogCircuit.fresh 20 0.05 0.00007 50 10 0.1).run.runSteps sinPoly 999).runStep
      sinPoly).2.simulationRunning = true := by
  have hpre : ∀ m : ℕ, m < 999 →
      clockAfter (AnalogCircuit.fresh 20 0.05 0.00007 50 10 0.1).run.T m
        (AnalogCircuit.fresh 20 0.05 0.00007 50 10 0.1).run.currentTime <
      (AnalogCircuit.fresh 20 0.05 0.00007 50 10 0.1).run.timeMax :=
    fun m hm => default_clock_below m (by omega)
  obtain ⟨ht, -⟩ := runSteps_progress sinPoly _ 999 hpre
  obtain ⟨hr, hc⟩ := runSteps_flags sinPoly _ 999 hpre
  have hT := runSteps_T sinPoly 999 (AnalogCircuit.fresh 20 0.05 0.00007 50 10 0.1).run
  have hM := runSteps_timeMax sinPoly 999 (AnalogCircuit.fresh 20 0.05 0.00007 50 10 0.1).run
  generalize (AnalogCircuit.fresh 20 0.05 0.00007 50 10 0.1).run.runSteps sinPoly 999 = c
    at ht hr hc hT hM ⊢
  have hlt : c.currentTime < c.timeMax := by
    rw [ht, hM]
    exact default_clock_below 999 (by norm_num)
  refine ⟨(runStep_fst_true_iff _ c).2 hlt, ?_, ?_, ?_⟩
  · rw [runStep_timeMax, runStep_time_of_lt _ c hlt, ht, hT, hM, ← clockAfter_succ]
    exact default_clock_reached
  · rw [(runStep_flags_of_lt _ c hlt).2, hc]
    rfl
  · rw [(runStep_flags_of_lt _ c hlt).1, hr]
    rfl

/-- Claim C5, amended. The value returned by `runStep` tells whether that call
performed a step. A performed step returns `true` and leaves both flags as they
were, also when it brings the clock to `timeMax` or beyond; it is the next call
that returns `false` and makes the circuit Complete (`simulationComplete` true,
`simulationRunning` false). -/
theorem runStep_reports_completion_one_call_late (sn : ℚ → ℚ) (c : AnalogCircuit)
    (hlt : c.currentTime < c.timeMax) (hend : c.timeMax ≤ dadd c.currentTime c.T) :
    (c.runStep sn).1 = true ∧
    (c.runStep sn).2.timeMax ≤ (c.runStep sn).2.currentTime ∧
    (c.runStep sn).2.simulationRunning = c.simulationRunning ∧
    (c.runStep sn).2.simulationComplete = c.simulationComplete ∧
    ((c.runStep sn).2.runStep sn).1 = false ∧
    ((c.runStep sn).2.runStep sn).2.simulationComplete = true ∧
    ((c.runStep sn).2.runStep sn).2.simulationRunning = false ∧
    sameRun (c.runStep sn).2 ((c.runStep sn).2.runStep sn).2 := by
  have hdone : (c.runStep sn).2.timeMax ≤ (c.runStep sn).2.currentTime := by
    rw [runStep_timeMax, runStep_time_of_lt sn c hlt]
    exact hend
  refine ⟨(runStep_fst_true_iff sn c).2 hlt, hdone, (runStep_flags_of_lt sn c hlt).1,
    (runStep_flags_of_lt sn c hlt).2, (runStep_fst_false_iff sn _).2 hdone, ?_, ?_,
    runStep_sameRun_of_done sn _ hdone⟩
  · rw [runStep_done sn _ hdone]
  · rw [runStep_done sn _ hdone]


/-- Witness for C5 (amended): a circuit whose end time is one time step. -/
theorem runStep_reports_completion_one_call_late_witness :
    (AnalogCircuit.fresh 20 0.05 0.00007 50 10 0.0001).currentTime <
      (AnalogCircuit.fresh 20 0.05 0.00007 50 10 0.0001).timeMax ∧
    ((AnalogCircuit.fresh 20 0.05 0.00007 50 10 0.0001).runStep sinPoly).1 = true ∧
    (((AnalogCircuit.fresh 20 0.05 0.00007 50 10 0.0001).runStep sinPoly).2.runStep sinPoly).1
      = false :=
  ⟨fresh_clock_lt _ _ _ _ _ _ (by norm_num),
    (runStep_reports_completion_one_call_late sinPoly
      (AnalogCircuit.fresh 20 0.05 0.00007 50 10 0.0001)
      (fresh_clock_lt _ _ _ _ _ _ (by norm_num))
      (show toDouble 0.0001 ≤ dadd 0 0.0001 by decide!)).1,
    (runStep_reports_completion_one_call_late sinPoly
      (AnalogCircuit.fresh 20 0.05 0.00007 50 10 0.0001)
      (fresh_clock_lt _ _ _ _ _ _ (by norm_num))
      (show toDouble 0.0001 ≤ dadd 0 0.0001 by decide!)).2.2.2.2.1⟩

/-- Claim C6, counterexample. With the end time -1 the constructor yields a
circuit; `run()` starts it and `runStep` can be called on it. -/
theorem construct_accepts_negative_end_time :
    AnalogCircuit.construct true 20 0.05 0.00007 50 10 (-1)
      = some (AnalogCircuit.fresh 20 0.05 0.00007 50 10 (-1)) ∧
    (AnalogCircuit.fresh 20 0.05 0.00007 50 10 (-1)).run.simulationRunning = true ∧
    ((AnalogCircuit.fresh 20 0.05 0.00007 50 10 (-1)).run.runStep sinPoly).1 = false := by
  refine ⟨rfl, rfl, (runStep_fst_false_iff _ _).2 ?_⟩
  exact toDouble_nonpos (-1) (by norm_num)

/-- Claim C6, amended. The constructor checks nothing but the output file: for
every parameter set it yields a circuit when the file opens and none when it
does not. The time step and the tolerance are not inputs; they are the positive
constants 0.0001 and 0.001; the end time is the given `simTime` as a double. A
circuit built with `simTime <= 0` can be started,
and every call of `runStep` on it performs no step: it returns `false`, marks the
circuit Complete and leaves the run untouched. -/
theorem construct_validates_only_the_file (sn : ℚ → ℚ) (R L C f Vp simTime : ℚ) :
    AnalogCircuit.construct true R L C f Vp simTime
      = some (AnalogCircuit.fresh R L C f Vp simTime) ∧
    AnalogCircuit.construct false R L C f Vp simTime = none ∧
    (AnalogCircuit.fresh R L C f Vp simTime).T = 0.0001 ∧
    (AnalogCircuit.fresh R L C f Vp simTime).tolerance = 0.001 ∧
    (AnalogCircuit.fresh R L C f Vp simTime).timeMax = toDouble simTime ∧
    (simTime ≤ 0 →
      (AnalogCircuit.fresh R L C f Vp simTime).run.simulationRunning = true ∧
      ((AnalogCircuit.fresh R L C f Vp simTime).run.runStep sn).1 = false ∧
      ((AnalogCircuit.fresh R L C f Vp simTime).run.runStep sn).2.simulationComplete = true ∧
      ((AnalogCircuit.fresh R L C f Vp simTime).run.runStep sn).2.stepCount = 0 ∧
      sameRun (AnalogCircuit.fresh R L C f Vp simTime).run
        ((AnalogCircuit.fresh R L C f Vp simTime).run.runStep sn).2) := by
  refine ⟨rfl, rfl, rfl, rfl, rfl, ?_⟩
  intro h
  have hdone : (AnalogCircuit.fresh R L C f Vp simTime).run.timeMax ≤
      (AnalogCircuit.fresh R L C f Vp simTime).run.currentTime := toDouble_nonpos simTime h
  refine ⟨rfl, (runStep_fst_false_iff sn _).2 hdone, ?_, ?_, runStep_sameRun_of_done sn _ hdone⟩
  · rw [runStep_done sn _ hdone]
  · rw [runStep_done sn _ hdone]
    rfl

/-- Witness for C6 (amended): end time 0. -/
theorem construct_validates_only_the_file_witness :
    (0 : ℚ) ≤ 0 ∧
    ((AnalogCircuit.fresh 20 0.05 0.00007 50 10 0).run.runStep sinPoly).1 = false :=
  ⟨le_refl 0,
    ((construct_validates_only_the_file sinPoly 20 0.05 0.00007 50 10 0).2.2.2.2.2
      (le_refl 0)).2.1⟩

/-! ## The solver loop -/

theorem costLoop_cap (c : AnalogCircuit) (v t : ℚ) (s : SolverState)
    (h : (c.iterBody v t s).iterations > maxIterations) :
    c.costLoop v t s =
      { current := (c.iterBody v t s).I1
        J1 := (c.iterBody v t s).J1
        iterations := (c.iterBody v t s).iterations
        evaluatedAt := s.I1
        warning := if fabs (c.iterBody v t s).J1 > 0.1 then some (c.iterBody v t s).J1 else none
        capExit := true } := by
  rw [AnalogCircuit.costLoop, if_pos h]

theorem costLoop_again (c : AnalogCircuit) (v t : ℚ) (s : SolverState)
    (h₁ : ¬ (c.iterBody v t s).iterations > maxIterations)
    (h₂ : fabs (c.iterBody v t s).J1 > c.tolerance) :
    c.costLoop v t s = c.costLoop v t (c.iterBody v t s) := by
  rw [AnalogCircuit.costLoop, if_neg h₁, if_pos h₂]

theorem costLoop_converged (c : AnalogCircuit) (v t : ℚ) (s : SolverState)
    (h₁ : ¬ (c.iterBody v t s).iterations > maxIterations)
    (h₂ : ¬ fabs (c.iterBody v t s).J1 > c.tolerance) :
    c.costLoop v t s =
      { current := (c.iterBody v t s).I1
        J1 := (c.iterBody v t s).J1
        iterations := (c.iterBody v t s).iterations
        evaluatedAt := s.I1
        warning := none
        capExit := false } := by
  rw [AnalogCircuit.costLoop, if_neg h₁, if_neg h₂]

theorem iterBody_J1 (c : AnalogCircuit) (v t : ℚ) (s : SolverState) :
    (c.iterBody v t s).J1 = c.sumV s.I1 t - v := rfl

/-- A pass that finds the mismatch within tolerance does not move the guess. -/
theorem iterBody_I1_of_within (c : AnalogCircuit) (v t : ℚ) (s : SolverState)
    (h : ¬ fabs (c.iterBody v t s).J1 > c.tolerance) : (c.iterBody v t s).I1 = s.I1 := by
  rw [iterBody_J1] at h
  simp only [AnalogCircuit.iterBody, if_neg h]

/-- The final mismatch is the residual of the trial current evaluated last. -/
theorem costLoop_J1 (c : AnalogCircuit) (v t : ℚ) (s : SolverState) :
    (c.costLoop v t s).J1 = c.sumV (c.costLoop v t s).evaluatedAt t - v := by
  induction s using AnalogCircuit.costLoop.induct c v t with
  | case1 s h => rw [costLoop_cap c v t s h]; rfl
  | case2 s h₁ h₂ ih => rw [costLoop_again c v t s h₁ h₂]; exact ih
  | case3 s h₁ h₂ => rw [costLoop_converged c v t s h₁ h₂]; rfl

/-- An exit through the loop condition: the mismatch is within tolerance, the
returned current is the one evaluated last, and nothing is printed. -/
theorem costLoop_of_not_capExit (c : AnalogCircuit) (v t : ℚ) (s : SolverState)
    (h : (c.costLoop v t s).capExit = false) :
    fabs (c.costLoop v t s).J1 ≤ c.tolerance ∧
      (c.costLoop v t s).current = (c.costLoop v t s).evaluatedAt ∧
      (c.costLoop v t s).warning = none := by
  induction s using AnalogCircuit.costLoop.induct c v t with
  | case1 s h₁ =>
    rw [costLoop_cap c v t s h₁] at h
    exact absurd h (by simp)
  | case2 s h₁ h₂ ih =>
    rw [costLoop_again c v t s h₁ h₂] at h ⊢
    exact ih h
  | case3 s h₁ h₂ =>
    rw [costLoop_converged c v t s h₁ h₂]
    exact ⟨not_lt.mp h₂, iterBody_I1_of_within c v t s h₂, rfl⟩

/-- The warning line is printed exactly on an exit through the safety check with
`fabs(J1) > 0.1`, and it prints `J1`. -/
theorem costLoop_warning (c : AnalogCircuit) (v t : ℚ) (s : SolverState) :
    (c.costLoop v t s).warning =
      if (c.costLoop v t s).capExit = true ∧ fabs (c.costLoop v t s).J1 > 0.1
      then some (c.costLoop v t s).J1 else none := by
  induction s using AnalogCircuit.costLoop.induct c v t with
  | case1 s h₁ =>
    rw [costLoop_cap c v t s h₁]
    simp
  | case2 s h₁ h₂ ih =>
    rw [costLoop_again c v t s h₁ h₂]
    exact ih
  | case3 s h₁ h₂ =>
    rw [costLoop_converged c v t s h₁ h₂]
    simp

/-- The loop body runs at most `maxIterations + 1` times when entered with a
counter not above `maxIterations`; the exit is through the safety check exactly
when the counter has passed `maxIterations`. -/
theorem costLoop_iterations (c : AnalogCircuit) (v t : ℚ) (s : SolverState)
    (h : s.iterations ≤ maxIterations) :
    s.iterations < (c.costLoop v t s).iterations ∧
      (c.costLoop v t s).iterations ≤ maxIterations + 1 ∧
      ((c.costLoop v t s).capExit = true ↔ (c.costLoop v t s).iterations > maxIterations) := by
  induction s using AnalogCircuit.costLoop.induct c v t with
  | case1 s h₁ =>
    rw [costLoop_cap c v t s h₁]
    rw [iterBody_iterations] at h₁ ⊢
    simp only [true_iff]
    omega
  | case2 s h₁ h₂ ih =>
    rw [costLoop_again c v t s h₁ h₂]
    rw [iterBody_iterations] at h₁ ih
    obtain ⟨i1, i2, i3⟩ := ih (by omega)
    exact ⟨by omega, i2, i3⟩
  | case3 s h₁ h₂ =>
    rw [costLoop_converged c v t s h₁ h₂]
    rw [iterBody_iterations] at h₁ ⊢
    simp only [Bool.false_eq_true, false_iff]
    omega


/-- On a freshly built circuit the solver started at current 0 with target 0
leaves after one pass with current 0. -/
theorem fresh_solve_zero (R L C f Vp simTime t : ℚ) :
    (AnalogCircuit.fresh R L C f Vp simTime).CostFunctionV 0 0 t =
      { current := 0, J1 := 0, iterations := 1, evaluatedAt := 0, warning := none,
        capExit := false } := by
  have hJ : ((AnalogCircuit.fresh R L C f Vp simTime).iterBody 0 t
      { I1 := 0, J1 := 0.0, J0 := 0.0, alpha := 0.01, iterations := 0 }).J1 = 0 := by
    simp [AnalogCircuit.iterBody, AnalogCircuit.sumV, AnalogCircuit.fresh,
      Resistor.GetVoltage, Capacitor.GetVoltage, Inductor.GetVoltage]
  have h₁ : ¬ ((AnalogCircuit.fresh R L C f Vp simTime).iterBody 0 t
      { I1 := 0, J1 := 0.0, J0 := 0.0, alpha := 0.01, iterations := 0 }).iterations
      > maxIterations := by
    rw [iterBody_iterations]
    simp [maxIterations]
  have h₂ : ¬ fabs ((AnalogCircuit.fresh R L C f Vp simTime).iterBody 0 t
      { I1 := 0, J1 := 0.0, J0 := 0.0, alpha := 0.01, iterations := 0 }).J1
      > (AnalogCircuit.fresh R L C f Vp simTime).tolerance := by
    rw [hJ]
    norm_num [fabs, AnalogCircuit.fresh]
  rw [AnalogCircuit.CostFunctionV, costLoop_converged _ _ _ _ h₁ h₂,
    iterBody_I1_of_within _ _ _ _ h₂, hJ, iterBody_iterations]

/-- The source voltage of the first step of the default circuit under `sinPoly`. -/
theorem default_first_input :
    (AnalogCircuit.fresh 20 0.05 0.00007 50 10 0.1).V_input sinPoly = 0 := by
  norm_num [AnalogCircuit.V_input, AnalogCircuit.fresh, sinPoly]

/-- Claim C1. Whenever `CostFunctionV` leaves its loop through the loop condition
(mismatch within tolerance, not the safety check), the current it returns is the
trial current evaluated last and the component voltages at that current sum to
the target within the tolerance; the three voltages and the source voltage that
`runStep` then appends to the histories satisfy
`|vR + vC + vL - V_input| <= tolerance`. -/
theorem converged_step_satisfies_kvl (sn : ℚ → ℚ) (c : AnalogCircuit) :
    (∀ current voltage timestep : ℚ,
      (c.CostFunctionV current voltage timestep).capExit = false →
        (c.CostFunctionV current voltage timestep).current
          = (c.CostFunctionV current voltage timestep).evaluatedAt ∧
        |c.sumV (c.CostFunctionV current voltage timestep).current timestep - voltage|
          ≤ c.tolerance) ∧
    (c.currentTime < c.timeMax →
      (c.CostFunctionV c.I (c.V_input sn) c.T).capExit = false →
      ∃ vR vC vL : ℚ,
        (c.runStep sn).2.voltageHistory0 = c.voltageHistory0 ++ [vR] ∧
        (c.runStep sn).2.voltageHistory1 = c.voltageHistory1 ++ [vC] ∧
        (c.runStep sn).2.voltageHistory2 = c.voltageHistory2 ++ [vL] ∧
        (c.runStep sn).2.inputHistory = c.inputHistory ++ [c.V_input sn] ∧
        (c.runStep sn).2.I = (c.CostFunctionV c.I (c.V_input sn) c.T).evaluatedAt ∧
        |vR + vC + vL - c.V_input sn| ≤ c.tolerance) := by
  have key : ∀ current voltage timestep : ℚ,
      (c.CostFunctionV current voltage timestep).capExit = false →
        (c.CostFunctionV current voltage timestep).current
          = (c.CostFunctionV current voltage timestep).evaluatedAt ∧
        |c.sumV (c.CostFunctionV current voltage timestep).current timestep - voltage|
          ≤ c.tolerance := by
    intro current voltage timestep h
    unfold AnalogCircuit.CostFunctionV at h ⊢
    obtain ⟨hJ, hI, -⟩ := costLoop_of_not_capExit c voltage timestep _ h
    refine ⟨hI, ?_⟩
    rw [hI, ← costLoop_J1, ← fabs_eq_abs]
    exact hJ
  refine ⟨key, ?_⟩
  intro hlt hcap
  obtain ⟨hI, hJ⟩ := key c.I (c.V_input sn) c.T hcap
  refine ⟨c.resistor.GetVoltage (c.CostFunctionV c.I (c.V_input sn) c.T).current c.T,
    c.capacitor.GetVoltage (c.CostFunctionV c.I (c.V_input sn) c.T).current c.T,
    c.inductor.GetVoltage (c.CostFunctionV c.I (c.V_input sn) c.T).current c.T, ?_, ?_, ?_, ?_,
    ?_, ?_⟩
  · simp [AnalogCircuit.runStep, not_le.mpr hlt]
  · simp [AnalogCircuit.runStep, not_le.mpr hlt]
  · simp [AnalogCircuit.runStep, not_le.mpr hlt]
  · simp [AnalogCircuit.runStep, not_le.mpr hlt]
  · rw [← hI]
    simp [AnalogCircuit.runStep, not_le.mpr hlt]
  · have hs : c.sumV (c.CostFunctionV c.I (c.V_input sn) c.T).current c.T =
        c.resistor.GetVoltage (c.CostFunctionV c.I (c.V_input sn) c.T).current c.T +
        c.capacitor.GetVoltage (c.CostFunctionV c.I (c.V_input sn) c.T).current c.T +
        c.inductor.GetVoltage (c.CostFunctionV c.I (c.V_input sn) c.T).current c.T := by
      simp [AnalogCircuit.sumV]
    rw [← hs]
    exact hJ

/-- Witness for C1: the first step of the default circuit, whose solver call
leaves through the loop condition. -/
theorem converged_step_satisfies_kvl_witness :
    (AnalogCircuit.fresh 20 0.05 0.00007 50 10 0.1).currentTime <
      (AnalogCircuit.fresh 20 0.05 0.00007 50 10 0.1).timeMax ∧
    ((AnalogCircuit.fresh 20 0.05 0.00007 50 10 0.1).CostFunctionV
      (AnalogCircuit.fresh 20 0.05 0.00007 50 10 0.1).I
      ((AnalogCircuit.fresh 20 0.05 0.00007 50 10 0.1).V_input sinPoly)
      (AnalogCircuit.fresh 20 0.05 0.00007 50 10 0.1).T).capExit = false ∧
    ∃ vR vC vL : ℚ,
      ((AnalogCircuit.fresh 20 0.05 0.00007 50 10 0.1).runStep sinPoly).2.voltageHistory0
        = (AnalogCircuit.fresh 20 0.05 0.00007 50 10 0.1).voltageHistory0 ++ [vR] ∧
      ((AnalogCircuit.fresh 20 0.05 0.00007 50 10 0.1).runStep sinPoly).2.voltageHistory1
        = (AnalogCircuit.fresh 20 0.05 0.00007 50 10 0.1).voltageHistory1 ++ [vC] ∧
      ((AnalogCircuit.fresh 20 0.05 0.00007 50 10 0.1).runStep sinPoly).2.voltageHistory2
        = (AnalogCircuit.fresh 20 0.05 0.00007 50 10 0.1).voltageHistory2 ++ [vL] ∧
      ((AnalogCircuit.fresh 20 0.05 0.00007 50 10 0.1).runStep sinPoly).2.inputHistory
        = (AnalogCircuit.fresh 20 0.05 0.00007 50 10 0.1).inputHistory ++
          [(AnalogCircuit.fresh 20 0.05 0.00007 50 10 0.1).V_input sinPoly] ∧
      ((AnalogCircuit.fresh 20 0.05 0.00007 50 10 0.1).runStep sinPoly).2.I
        = ((AnalogCircuit.fresh 20 0.05 0.00007 50 10 0.1).CostFunctionV
            (AnalogCircuit.fresh 20 0.05 0.00007 50 10 0.1).I
            ((AnalogCircuit.fresh 20 0.05 0.00007 50 10 0.1).V_input sinPoly)
            (AnalogCircuit.fresh 20 0.05 0.00007 50 10 0.1).T).evaluatedAt ∧
      |vR + vC + vL - (AnalogCircuit.fresh 20 0.05 0.00007 50 10 0.1).V_input sinPoly|
        ≤ (AnalogCircuit.fresh 20 0.05 0.00007 50 10 0.1).tolerance :=
  have hlt : (AnalogCircuit.fresh 20 0.05 0.00007 50 10 0.1).currentTime <
      (AnalogCircuit.fresh 20 0.05 0.00007 50 10 0.1).timeMax :=
    fresh_clock_lt _ _ _ _ _ _ (by norm_num)
  have hcap : ((AnalogCircuit.fresh 20 0.05 0.00007 50 10 0.1).CostFunctionV
      (AnalogCircuit.fresh 20 0.05 0.00007 50 10 0.1).I
      ((AnalogCircuit.fresh 20 0.05 0.00007 50 10 0.1).V_input sinPoly)
      (AnalogCircuit.fresh 20 0.05 0.00007 50 10 0.1).T).capExit = false := by
    rw [default_first_input]
    show ((AnalogCircuit.fresh 20 0.05 0.00007 50 10 0.1).CostFunctionV 0 0 _).capExit = false
    rw [fresh_solve_zero]
  ⟨hlt, hcap, (converged_step_satisfies_kvl sinPoly _).2 hlt hcap⟩

/-! ### A run of the solver that ends at the safety check

The default circuit right after construction has `sumV(I) = 520 * I` at the time
step 0.0001. Started above the root with target 0, the solver walks down in steps
of 0.005 and is stopped by the safety check. -/

theorem default_sumV (I : ℚ) :
    (AnalogCircuit.fresh 20 0.05 0.00007 50 10 0.1).sumV I 0.0001 = 520 * I := by
  norm_num [AnalogCircuit.sumV, AnalogCircuit.fresh, Resistor.GetVoltage,
    Capacitor.GetVoltage, Inductor.GetVoltage]
  ring

/-- One pass of the walk: the mismatch went down and is still out of tolerance,
so `alpha` is kept and the guess moves down by it. -/
theorem default_iterBody_descend (s : SolverState) (ha : s.alpha = 1 / 200)
    (hJ0 : 520 * s.I1 < s.J0) (hJ1 : 1 / 1000 < 520 * s.I1) :
    (AnalogCircuit.fresh 20 0.05 0.00007 50 10 0.1).iterBody 0 0.0001 s =
      { I1 := s.I1 - 1 / 200, J1 := 520 * s.I1, J0 := 520 * s.I1, alpha := 1 / 200,
        iterations := s.iterations + 1 } := by
  have hpos : ¬ s.J0 - 520 * s.I1 < 0 := by linarith
  have hne : ¬ s.J0 = 520 * s.I1 := by
    intro h
    linarith
  have hneg : ¬ 520 * s.I1 < 0 := by linarith
  have htol : (AnalogCircuit.fresh 20 0.05 0.00007 50 10 0.1).tolerance = 1 / 1000 := by
    norm_num [AnalogCircuit.fresh]
  simp only [AnalogCircuit.iterBody, default_sumV, sub_zero, fabs, htol, ha, if_neg hpos,
    if_neg hneg, if_pos hJ1, hne, ne_eq, not_true_eq_false, or_self, if_false]
  norm_num

/-- The walk from a state with `n` passes left before the safety check. -/
theorem default_costLoop_descend (n : ℕ) (s : SolverState) (ha : s.alpha = 1 / 200)
    (hJ0 : 520 * s.I1 < s.J0) (hit : s.iterations + n = 1000)
    (hJ1 : 1 / 1000 < 520 * (s.I1 - (n : ℚ) / 200)) :
    (AnalogCircuit.fresh 20 0.05 0.00007 50 10 0.1).costLoop 0 0.0001 s =
      { current := s.I1 - ((n : ℚ) + 1) / 200
        J1 := 520 * (s.I1 - (n : ℚ) / 200)
        iterations := 1001
        evaluatedAt := s.I1 - (n : ℚ) / 200
        warning := if fabs (520 * (s.I1 - (n : ℚ) / 200)) > 0.1
                   then some (520 * (s.I1 - (n : ℚ) / 200)) else none
        capExit := true } := by
  induction n generalizing s with
  | zero =>
    have hJ1' : 1 / 1000 < 520 * s.I1 := by simpa using hJ1
    have hb := default_iterBody_descend s ha hJ0 hJ1'
    have hcap : ((AnalogCircuit.fresh 20 0.05 0.00007 50 10 0.1).iterBody 0 0.0001 s).iterations
        > maxIterations := by
      rw [iterBody_iterations]
      simp only [maxIterations]
      omega
    rw [costLoop_cap _ _ _ _ hcap, hb]
    have h1001 : s.iterations + 1 = 1001 := by omega
    simp [h1001]
  | succ n ih =>
    have hn : (0 : ℚ) ≤ (n : ℚ) := Nat.cast_nonneg n
    push_cast at hJ1
    have hJ1' : 1 / 1000 < 520 * s.I1 := by linarith
    have hb := default_iterBody_descend s ha hJ0 hJ1'
    have h₁ : ¬ ((AnalogCircuit.fresh 20 0.05 0.00007 50 10 0.1).iterBody 0 0.0001 s).iterations
        > maxIterations := by
      rw [iterBody_iterations]
      simp only [maxIterations]
      omega
    have h₂ : fabs ((AnalogCircuit.fresh 20 0.05 0.00007 50 10 0.1).iterBody 0 0.0001 s).J1
        > (AnalogCircuit.fresh 20 0.05 0.00007 50 10 0.1).tolerance := by
      rw [hb, fabs_eq_abs]
      have : (0 : ℚ) ≤ 520 * s.I1 := by linarith
      rw [abs_of_nonneg this]
      norm_num [AnalogCircuit.fresh]
      linarith
    rw [costLoop_again _ _ _ _ h₁ h₂, hb]
    rw [ih _ rfl (by simp only; linarith) (by simp only; omega) (by simp only; linarith)]
    push_cast
    have e1 : s.I1 - 1 / 200 - ((n : ℚ) + 1) / 200 = s.I1 - ((n : ℚ) + 1 + 1) / 200 := by ring
    have e2 : s.I1 - 1 / 200 - (n : ℚ) / 200 = s.I1 - ((n : ℚ) + 1) / 200 := by ring
    simp only [e1, e2]

/-- The whole call on the default circuit from a current `I0` above
`5 + 0.001 / 520` with target 0: 1001 passes, exit through the safety check. -/
theorem default_solver_hits_cap (I0 : ℚ) (h : 1 / 1000 < 520 * (I0 - 5)) :
    (AnalogCircuit.fresh 20 0.05 0.00007 50 10 0.1).CostFunctionV I0 0 0.0001 =
      { current := I0 - 1001 / 200
        J1 := 520 * (I0 - 5)
        iterations := 1001
        evaluatedAt := I0 - 5
        warning := if fabs (520 * (I0 - 5)) > 0.1 then some (520 * (I0 - 5)) else none
        capExit := true } := by
  have hI0 : 1 / 1000 < 520 * I0 := by linarith
  have hb : (AnalogCircuit.fresh 20 0.05 0.00007 50 10 0.1).iterBody 0 0.0001
      { I1 := I0, J1 := 0.0, J0 := 0.0, alpha := 0.01, iterations := 0 } =
      { I1 := I0 - 1 / 200, J1 := 520 * I0, J0 := 520 * I0, alpha := 1 / 200,
        iterations := 1 } := by
    have hneg : (0.0 : ℚ) - 520 * I0 < 0 := by norm_num; linarith
    have hne : fabs ((0.0 : ℚ) - 520 * I0) ≠ (0.0 : ℚ) - 520 * I0 := by
      rw [fabs, if_pos hneg]
      intro h'
      linarith
    have hnn : ¬ 520 * I0 < 0 := by linarith
    have htol : (AnalogCircuit.fresh 20 0.05 0.00007 50 10 0.1).tolerance = 1 / 1000 := by
      norm_num [AnalogCircuit.fresh]
    have hf : fabs (520 * I0) > 1 / 1000 := by
      rw [fabs, if_neg hnn]
      exact hI0
    simp only [AnalogCircuit.iterBody, default_sumV, sub_zero, htol, hne, ne_eq,
      not_false_eq_true, true_or, if_true, hf, if_neg hnn]
    norm_num
  have h₁ : ¬ ((AnalogCircuit.fresh 20 0.05 0.00007 50 10 0.1).iterBody 0 0.0001
      { I1 := I0, J1 := 0.0, J0 := 0.0, alpha := 0.01, iterations := 0 }).iterations
      > maxIterations := by
    rw [iterBody_iterations]
    simp [maxIterations]
  have h₂ : fabs ((AnalogCircuit.fresh 20 0.05 0.00007 50 10 0.1).iterBody 0 0.0001
      { I1 := I0, J1 := 0.0, J0 := 0.0, alpha := 0.01, iterations := 0 }).J1
      > (AnalogCircuit.fresh 20 0.05 0.00007 50 10 0.1).tolerance := by
    rw [hb, fabs_eq_abs]
    have : (0 : ℚ) ≤ 520 * I0 := by linarith
    rw [abs_of_nonneg this]
    norm_num [AnalogCircuit.fresh]
    linarith
  rw [AnalogCircuit.CostFunctionV, costLoop_again _ _ _ _ h₁ h₂, hb]
  rw [default_costLoop_descend 999 _ rfl (by simp only; linarith) (by simp only)
    (by simp only; push_cast; linarith)]
  have e1 : I0 - 1 / 200 - (((999 : ℕ) : ℚ) + 1) / 200 = I0 - 1001 / 200 := by
    push_cast
    ring
  have e2 : I0 - 1 / 200 - ((999 : ℕ) : ℚ) / 200 = I0 - 5 := by
    push_cast
    ring
  simp only [e1, e2]

/-- Claim C7, counterexample. On the default circuit the call
`CostFunctionV(5.0001, 0, 0.0001)` is stopped by the safety check after 1001
passes with mismatch 0.052, above the tolerance 0.001, and prints no warning. -/
theorem silent_exit_at_iteration_cap :
    ((AnalogCircuit.fresh 20 0.05 0.00007 50 10 0.1).CostFunctionV 5.0001 0 0.0001).capExit
      = true ∧
    ((AnalogCircuit.fresh 20 0.05 0.00007 50 10 0.1).CostFunctionV 5.0001 0 0.0001).J1
      = 0.052 ∧
    |((AnalogCircuit.fresh 20 0.05 0.00007 50 10 0.1).CostFunctionV 5.0001 0 0.0001).J1|
      > (AnalogCircuit.fresh 20 0.05 0.00007 50 10 0.1).tolerance ∧
    ((AnalogCircuit.fresh 20 0.05 0.00007 50 10 0.1).CostFunctionV 5.0001 0 0.0001).warning
      = none := by
  rw [default_solver_hits_cap 5.0001 (by norm_num)]
  refine ⟨rfl, ?_, ?_, ?_⟩
  · norm_num
  · norm_num [AnalogCircuit.fresh, abs_of_nonneg]
  · norm_num [fabs]

/-- Claim C7, amended. A call of `CostFunctionV` prints the warning, carrying the
final mismatch `J1`, exactly when it leaves through the safety check (more than
`maxIterations` passes) with `|J1| > 0.1`; an exit at the cap with
`tolerance < |J1| <= 0.1` prints nothing. -/
theorem warning_iff_cap_and_above_tenth (c : AnalogCircuit) (current voltage timestep : ℚ) :
    (c.CostFunctionV current voltage timestep).warning =
      (if (c.CostFunctionV current voltage timestep).capExit = true ∧
          |(c.CostFunctionV current voltage timestep).J1| > 0.1
       then some (c.CostFunctionV current voltage timestep).J1 else none) ∧
    ((c.CostFunctionV current voltage timestep).capExit = true ↔
      (c.CostFunctionV current voltage timestep).iterations > maxIterations) := by
  constructor
  · rw [← fabs_eq_abs]
    exact costLoop_warning c voltage timestep _
  · exact (costLoop_iterations c voltage timestep
      { I1 := current, J1 := 0.0, J0 := 0.0, alpha := 0.01, iterations := 0 }
      (Nat.zero_le _)).2.2

/-- Claim C8. `CostFunctionV` is total, and every call makes at least one and at
most `maxIterations + 1 = 1001` passes through the loop body (one evaluation of
the voltage sum each); the bound 1001 is attained, so the cap of 1000
evaluations is exceeded: on the default circuit `CostFunctionV(6, 0, 0.0001)`
evaluates the sum 1001 times. -/
theorem solver_evaluates_1001_times :
    (∀ (c : AnalogCircuit) (current voltage timestep : ℚ),
      1 ≤ (c.CostFunctionV current voltage timestep).iterations ∧
      (c.CostFunctionV current voltage timestep).iterations ≤ maxIterations + 1) ∧
    ((AnalogCircuit.fresh 20 0.05 0.00007 50 10 0.1).CostFunctionV 6 0 0.0001).iterations
      = 1001 ∧
    maxIterations < ((AnalogCircuit.fresh 20 0.05 0.00007 50 10 0.1).CostFunctionV 6 0
      0.0001).iterations := by
  have h6 := default_solver_hits_cap 6 (by norm_num)
  refine ⟨?_, ?_, ?_⟩
  · intro c current voltage timestep
    have h := costLoop_iterations c voltage timestep
      { I1 := current, J1 := 0.0, J0 := 0.0, alpha := 0.01, iterations := 0 } (Nat.zero_le _)
    exact ⟨h.1, h.2.1⟩
  · rw [h6]
  · rw [h6]
    simp [maxIterations]

/-! ## What a performed step reads and what it commits -/

theorem runStep_I_of_lt (sn : ℚ → ℚ) (c : AnalogCircuit) (h : c.currentTime < c.timeMax) :
    (c.runStep sn).2.I = (c.CostFunctionV c.I (c.V_input sn) c.T).current := by
  simp [AnalogCircuit.runStep, not_le.mpr h]

theorem runStep_components_of_lt (sn : ℚ → ℚ) (c : AnalogCircuit)
    (h : c.currentTime < c.timeMax) :
    (c.runStep sn).2.resistor = c.resistor ∧
    (c.runStep sn).2.capacitor = c.capacitor.UpdateVoltage (c.runStep sn).2.I c.T ∧
    (c.runStep sn).2.inductor = c.inductor.SetCurrent (c.runStep sn).2.I := by
  simp [AnalogCircuit.runStep, not_le.mpr h]

theorem runStep_record_of_lt (sn : ℚ → ℚ) (c : AnalogCircuit) (h : c.currentTime < c.timeMax) :
    (c.runStep sn).2.voltageHistory0 =
      c.voltageHistory0 ++ [c.resistor.GetVoltage (c.runStep sn).2.I c.T] ∧
    (c.runStep sn).2.voltageHistory1 =
      c.voltageHistory1 ++ [c.capacitor.GetVoltage (c.runStep sn).2.I c.T] ∧
    (c.runStep sn).2.voltageHistory2 =
      c.voltageHistory2 ++ [c.inductor.GetVoltage (c.runStep sn).2.I c.T] ∧
    (c.runStep sn).2.fout = c.fout ++
      [{ time := c.currentTime, current := (c.runStep sn).2.I,
         vR := c.resistor.GetVoltage (c.runStep sn).2.I c.T,
         vC := c.capacitor.GetVoltage (c.runStep sn).2.I c.T,
         vL := c.inductor.GetVoltage (c.runStep sn).2.I c.T }] := by
  simp [AnalogCircuit.runStep, not_le.mpr h]

/-- The state in which step `k` of a fresh circuit starts, when the clock has
stayed below the end time so far: the capacitor holds the sum of the committed
increments, the inductor holds the last accepted current. -/
theorem fresh_state_before_step (sn : ℚ → ℚ) (R L C f Vp simTime : ℚ) (k : ℕ)
    (h : ∀ m : ℕ, m < k → clockAfter 0.0001 m 0 < toDouble simTime) :
    ((AnalogCircuit.fresh R L C f Vp simTime).runSteps sn k).resistor = { resistance := R } ∧
    ((AnalogCircuit.fresh R L C f Vp simTime).runSteps sn k).capacitor =
      { capacitance := C
        voltage := (Finset.range k).sum fun j =>
          (AnalogCircuit.fresh R L C f Vp simTime).accepted sn j * 0.0001 / C } ∧
    ((AnalogCircuit.fresh R L C f Vp simTime).runSteps sn k).inductor =
      { inductance := L
        lastCurrent := (AnalogCircuit.fresh R L C f Vp simTime).acceptedBefore sn k } ∧
    ((AnalogCircuit.fresh R L C f Vp simTime).runSteps sn k).I =
      (AnalogCircuit.fresh R L C f Vp simTime).acceptedBefore sn k ∧
    ((AnalogCircuit.fresh R L C f Vp simTime).runSteps sn k).voltageHistory0.length = k ∧
    ((AnalogCircuit.fresh R L C f Vp simTime).runSteps sn k).voltageHistory1.length = k ∧
    ((AnalogCircuit.fresh R L C f Vp simTime).runSteps sn k).voltageHistory2.length = k ∧
    ((AnalogCircuit.fresh R L C f Vp simTime).runSteps sn k).fout.length = k := by
  induction k with
  | zero =>
    simp [AnalogCircuit.runSteps, AnalogCircuit.fresh, AnalogCircuit.acceptedBefore]
  | succ k ih =>
    obtain ⟨hR, hCap, hL, -, l0, l1, l2, l3⟩ := ih (fun m hm => h m (Nat.lt_succ_of_lt hm))
    have hpre : ∀ m : ℕ, m < k →
        clockAfter (AnalogCircuit.fresh R L C f Vp simTime).T m
          (AnalogCircuit.fresh R L C f Vp simTime).currentTime <
        (AnalogCircuit.fresh R L C f Vp simTime).timeMax :=
      fun m hm => h m (Nat.lt_succ_of_lt hm)
    have hlt : ((AnalogCircuit.fresh R L C f Vp simTime).runSteps sn k).currentTime <
        ((AnalogCircuit.fresh R L C f Vp simTime).runSteps sn k).timeMax := by
      rw [runSteps_timeMax, (runSteps_progress sn _ k hpre).1]
      exact h k (Nat.lt_succ_self k)
    have hT : ((AnalogCircuit.fresh R L C f Vp simTime).runSteps sn k).T = 0.0001 :=
      runSteps_T sn k _
    obtain ⟨cR, cC, cL⟩ := runStep_components_of_lt sn _ hlt
    obtain ⟨r0, r1, r2, r3⟩ := runStep_record_of_lt sn _ hlt
    have hacc : (((AnalogCircuit.fresh R L C f Vp simTime).runSteps sn k).runStep sn).2.I =
        (AnalogCircuit.fresh R L C f Vp simTime).accepted sn k := rfl
    rw [runSteps_succ]
    refine ⟨cR.trans hR, ?_, ?_, rfl, ?_, ?_, ?_, ?_⟩
    · rw [cC, hCap, hacc, hT, Finset.sum_range_succ]
      rfl
    · rw [cL, hL, hacc]
      rfl
    · rw [r0, List.length_append, l0]
      rfl
    · rw [r1, List.length_append, l1]
      rfl
    · rw [r2, List.length_append, l2]
      rfl
    · rw [r3, List.length_append, l3]
      rfl

/-- Claim C2. In a run of a freshly built circuit with `C != 0` (`T = 0.0001`),
write `I_j` for the current accepted by step `j` and `I_(-1) = 0`. If step `k` is
performed (the clock after `k` additions of `T` is below the end time), its
solver call is seeded with `I_(k-1)` and every trial evaluation
in it is `R*I1 + (T/C)*(I_0 + ... + I_(k-1)) + L*(I1 - I_(k-1))/T`, and the record
appended by step `k` (at index `k` of each history) is `vR = R*I_k`,
`vC = (T/C)*(I_0 + ... + I_(k-1))`, `vL = L*(I_k - I_(k-1))/T`: all reads use the
state left by the commit of step `k-1`. -/
theorem step_reads_state_of_previous_commit (sn : ℚ → ℚ) (R L C f Vp simTime : ℚ) (k : ℕ)
    (_hC : C ≠ 0) (hk : clockAfter 0.0001 k 0 < toDouble simTime) :
    (AnalogCircuit.fresh R L C f Vp simTime).accepted sn k =
      (((AnalogCircuit.fresh R L C f Vp simTime).runSteps sn k).CostFunctionV
        ((AnalogCircuit.fresh R L C f Vp simTime).acceptedBefore sn k)
        (((AnalogCircuit.fresh R L C f Vp simTime).runSteps sn k).V_input sn) 0.0001).current ∧
    (∀ I1 : ℚ, ((AnalogCircuit.fresh R L C f Vp simTime).runSteps sn k).sumV I1 0.0001 =
      R * I1 +
      (0.0001 / C) * ((Finset.range k).sum fun j =>
        (AnalogCircuit.fresh R L C f Vp simTime).accepted sn j) +
      L * (I1 - (AnalogCircuit.fresh R L C f Vp simTime).acceptedBefore sn k) / 0.0001) ∧
    ((AnalogCircuit.fresh R L C f Vp simTime).runSteps sn (k + 1)).voltageHistory0 =
      ((AnalogCircuit.fresh R L C f Vp simTime).runSteps sn k).voltageHistory0 ++
        [R * (AnalogCircuit.fresh R L C f Vp simTime).accepted sn k] ∧
    ((AnalogCircuit.fresh R L C f Vp simTime).runSteps sn (k + 1)).voltageHistory1 =
      ((AnalogCircuit.fresh R L C f Vp simTime).runSteps sn k).voltageHistory1 ++
        [(0.0001 / C) * ((Finset.range k).sum fun j =>
          (AnalogCircuit.fresh R L C f Vp simTime).accepted sn j)] ∧
    ((AnalogCircuit.fresh R L C f Vp simTime).runSteps sn (k + 1)).voltageHistory2 =
      ((AnalogCircuit.fresh R L C f Vp simTime).runSteps sn k).voltageHistory2 ++
        [L * ((AnalogCircuit.fresh R L C f Vp simTime).accepted sn k -
          (AnalogCircuit.fresh R L C f Vp simTime).acceptedBefore sn k) / 0.0001] ∧
    ((AnalogCircuit.fresh R L C f Vp simTime).runSteps sn k).voltageHistory0.length = k ∧
    ((AnalogCircuit.fresh R L C f Vp simTime).runSteps sn k).voltageHistory1.length = k ∧
    ((AnalogCircuit.fresh R L C f Vp simTime).runSteps sn k).voltageHistory2.length = k := by
  have hall : ∀ m : ℕ, m < k → clockAfter 0.0001 m 0 < toDouble simTime := by
    intro m hm
    exact lt_of_le_of_lt
      (clockAfter_mono 0.0001 0 (by norm_num) le_rfl toDouble_zero m k hm.le) hk
  obtain ⟨hR, hCap, hL, hI, l0, l1, l2, -⟩ :=
    fresh_state_before_step sn R L C f Vp simTime k hall
  have hpre : ∀ m : ℕ, m < k →
      clockAfter (AnalogCircuit.fresh R L C f Vp simTime).T m
        (AnalogCircuit.fresh R L C f Vp simTime).currentTime <
      (AnalogCircuit.fresh R L C f Vp simTime).timeMax := hall
  have hlt : ((AnalogCircuit.fresh R L C f Vp simTime).runSteps sn k).currentTime <
      ((AnalogCircuit.fresh R L C f Vp simTime).runSteps sn k).timeMax := by
    rw [runSteps_timeMax, (runSteps_progress sn _ k hpre).1]
    exact hk
  have hT : ((AnalogCircuit.fresh R L C f Vp simTime).runSteps sn k).T = 0.0001 :=
    runSteps_T sn k _
  have hsum : ((Finset.range k).sum fun j =>
      (AnalogCircuit.fresh R L C f Vp simTime).accepted sn j * 0.0001 / C) =
      (0.0001 / C) * ((Finset.range k).sum fun j =>
        (AnalogCircuit.fresh R L C f Vp simTime).accepted sn j) := by
    rw [Finset.mul_sum]
    refine Finset.sum_congr rfl (fun j _ => ?_)
    ring
  obtain ⟨r0, r1, r2, -⟩ := runStep_record_of_lt sn _ hlt
  have hacc : (((AnalogCircuit.fresh R L C f Vp simTime).runSteps sn k).runStep sn).2.I =
      (AnalogCircuit.fresh R L C f Vp simTime).accepted sn k := rfl
  refine ⟨?_, ?_, ?_, ?_, ?_, l0, l1, l2⟩
  · rw [← hacc, runStep_I_of_lt sn _ hlt, hI, hT]
  · intro I1
    simp only [AnalogCircuit.sumV, hR, hCap, hL, Resistor.GetVoltage, Capacitor.GetVoltage,
      Inductor.GetVoltage, hsum]
    ring
  · rw [runSteps_succ, r0, hacc, hR]
    simp only [Resistor.GetVoltage]
    rw [mul_comm]
  · rw [runSteps_succ, r1, hCap]
    simp only [Capacitor.GetVoltage, hsum]
  · rw [runSteps_succ, r2, hacc, hL, hT]
    simp only [Inductor.GetVoltage]

/-- Witness for C2: step 1 of the default circuit. -/
theorem step_reads_state_of_previous_commit_witness :
    (0.00007 : ℚ) ≠ 0 ∧ clockAfter 0.0001 1 0 < toDouble 0.1 ∧
    ((AnalogCircuit.fresh 20 0.05 0.00007 50 10 0.1).runSteps sinPoly (1 + 1)).voltageHistory1 =
      ((AnalogCircuit.fresh 20 0.05 0.00007 50 10 0.1).runSteps sinPoly 1).voltageHistory1 ++
        [(0.0001 / 0.00007) * ((Finset.range 1).sum fun j =>
          (AnalogCircuit.fresh 20 0.05 0.00007 50 10 0.1).accepted sinPoly j)] :=
  ⟨by norm_num, default_clock_below 1 (by norm_num),
    (step_reads_state_of_previous_commit sinPoly 20 0.05 0.00007 50 10 0.1 1
      (by norm_num) (default_clock_below 1 (by norm_num))).2.2.2.1⟩

/-! ## The component models -/

/-- The older `Capacitor.h` does change the object when it reports: after a call
with `I = 1`, `T = 1` on a 1 F capacitor at 0 V the stored value is 1. -/
theorem legacy_getVoltage_writes_state :
    (LegacyCapacitor.GetVoltageCall { capacitance := 1, lastVoltage := 0 } 1 1).2 ≠
      { capacitance := 1, lastVoltage := 0 } := by
  simp [LegacyCapacitor.GetVoltageCall]

/-- Claim C11. For `Resistor`, `Capacitor` and `Inductor` a call `GetVoltage(I, T)`
leaves the object as it was, returns the value the pure reading gives, and a
second call with the same arguments returns the same value; the value a
`Capacitor` reports is its stored voltage whatever `I` and `T` are. Hence the
solver's loop over the components returns the pure sum and leaves the three
components of a circuit unchanged. -/
theorem getVoltage_is_a_pure_read (r : Resistor) (c : Capacitor) (l : Inductor) (I T : ℚ) :
    ((r.GetVoltageCall I T).2 = r ∧ (r.GetVoltageCall I T).1 = r.GetVoltage I T ∧
      ((r.GetVoltageCall I T).2.GetVoltageCall I T).1 = (r.GetVoltageCall I T).1) ∧
    ((c.GetVoltageCall I T).2 = c ∧ (c.GetVoltageCall I T).1 = c.GetVoltage I T ∧
      ((c.GetVoltageCall I T).2.GetVoltageCall I T).1 = (c.GetVoltageCall I T).1) ∧
    ((l.GetVoltageCall I T).2 = l ∧ (l.GetVoltageCall I T).1 = l.GetVoltage I T ∧
      ((l.GetVoltageCall I T).2.GetVoltageCall I T).1 = (l.GetVoltageCall I T).1) ∧
    (∀ I' T' : ℚ, (c.GetVoltageCall I' T').1 = c.voltage ∧ c.GetVoltage I' T' = c.voltage) ∧
    (∀ (a : AnalogCircuit) (I1 timestep : ℚ),
      a.sumVCall I1 timestep = (a.sumV I1 timestep, a.resistor, a.capacitor, a.inductor)) := by
  refine ⟨⟨rfl, rfl, rfl⟩, ⟨rfl, rfl, rfl⟩, ⟨rfl, rfl, rfl⟩, fun _ _ => ⟨rfl, rfl⟩, ?_⟩
  intro a I1 timestep
  rfl

theorem commits_capacitance (c : Capacitor) (I T : ℚ) (n : ℕ) :
    (c.commits I T n).capacitance = c.capacitance := by
  induction n with
  | zero => rfl
  | succ n ih => simpa [Capacitor.commits, Capacitor.UpdateVoltage] using ih

/-- After `n` equal commits the stored voltage has grown by `n * (I * T / C)`. -/
theorem commits_voltage (c : Capacitor) (I T : ℚ) (n : ℕ) :
    (c.commits I T n).voltage = c.voltage + (n : ℚ) * (I * T / c.capacitance) := by
  induction n with
  | zero => simp [Capacitor.commits]
  | succ n ih =>
    simp only [Capacitor.commits, Capacitor.UpdateVoltage, ih, commits_capacitance]
    push_cast
    ring

/-- Claim C12. A capacitor built with capacitance `C > 0` and then committed `n`
times with the same current `I > 0` and time step `T > 0` reports the voltage
`n * I * T / C`, for every trial current and time step of the report, and the
magnitude of the reported voltage does not decrease from commit `n` to commit
`n + 1`. -/
theorem capacitor_constant_current (C T I : ℚ) (n : ℕ) (hC : 0 < C) (hT : 0 < T)
    (hI : 0 < I) :
    (∀ I' T' : ℚ, ((Capacitor.create C).commits I T n).GetVoltage I' T'
      = (n : ℚ) * I * T / C) ∧
    (∀ I' T' : ℚ, |((Capacitor.create C).commits I T n).GetVoltage I' T'| ≤
      |((Capacitor.create C).commits I T (n + 1)).GetVoltage I' T'|) := by
  have hstep : 0 < I * T / C := div_pos (mul_pos hI hT) hC
  have hn : (0 : ℚ) ≤ (n : ℚ) := Nat.cast_nonneg n
  have hv : ∀ m : ℕ, ((Capacitor.create C).commits I T m).voltage
      = (m : ℚ) * (I * T / C) := by
    intro m
    rw [commits_voltage]
    simp [Capacitor.create]
  constructor
  · intro I' T'
    simp only [Capacitor.GetVoltage, hv]
    ring
  · intro I' T'
    simp only [Capacitor.GetVoltage, hv]
    have h0 : (0 : ℚ) ≤ (n : ℚ) * (I * T / C) := mul_nonneg hn hstep.le
    have h1 : (0 : ℚ) ≤ ((n + 1 : ℕ) : ℚ) * (I * T / C) :=
      mul_nonneg (Nat.cast_nonneg _) hstep.le
    rw [abs_of_nonneg h0, abs_of_nonneg h1]
    push_cast
    nlinarith

/-- Witness for C12: the default capacitor, 1 A, the default time step, three
commits. -/
theorem capacitor_constant_current_witness :
    (0 : ℚ) < 0.00007 ∧ (0 : ℚ) < 0.0001 ∧ (0 : ℚ) < 1 ∧
    ((Capacitor.create 0.00007).commits 1 0.0001 3).GetVoltage 0 0.0001
      = ((3 : ℕ) : ℚ) * 1 * 0.0001 / 0.00007 :=
  ⟨by norm_num, by norm_num, by norm_num,
    (capacitor_constant_current 0.00007 0.0001 1 3 (by norm_num) (by norm_num)
      (by norm_num)).1 0 0.0001⟩

/-- Claim C13. If two consecutive calls of `runStep` both perform a step and accept
the same current, the inductor voltage recorded by the second is 0; and for
every inductor and every `T != 0`, `GetVoltage(I, T)` after `SetCurrent(I)`
returns 0. -/
theorem inductor_steady_state_voltage_zero (sn : ℚ → ℚ) :
    (∀ c : AnalogCircuit, c.currentTime < c.timeMax →
      (c.runStep sn).2.currentTime < (c.runStep sn).2.timeMax →
      ((c.runStep sn).2.runStep sn).2.I = (c.runStep sn).2.I →
      ((c.runStep sn).2.runStep sn).2.voltageHistory2 =
        (c.runStep sn).2.voltageHistory2 ++ [0]) ∧
    (∀ (l : Inductor) (I T : ℚ), T ≠ 0 → (l.SetCurrent I).GetVoltage I T = 0 ∧
      ((l.SetCurrent I).GetVoltageCall I T).1 = 0) := by
  constructor
  · intro c h₁ h₂ hI
    obtain ⟨-, -, hL⟩ := runStep_components_of_lt sn c h₁
    obtain ⟨-, -, r2, -⟩ := runStep_record_of_lt sn _ h₂
    rw [r2, hI, hL]
    simp [Inductor.GetVoltage, Inductor.SetCurrent]
  · intro l I T _
    simp [Inductor.GetVoltage, Inductor.GetVoltageCall, Inductor.SetCurrent]


/-! ## A circuit at rest -/

/-- With the capacitor at 0 V and no committed current the solver started at
current 0 with target 0 leaves after one pass with current 0. -/
theorem solve_zero_at_rest (c : AnalogCircuit) (t : ℚ) (hv : c.capacitor.voltage = 0)
    (hl : c.inductor.lastCurrent = 0) (htol : 0 ≤ c.tolerance) :
    c.CostFunctionV 0 0 t =
      { current := 0, J1 := 0, iterations := 1, evaluatedAt := 0, warning := none,
        capExit := false } := by
  have hJ : (c.iterBody 0 t
      { I1 := 0, J1 := 0.0, J0 := 0.0, alpha := 0.01, iterations := 0 }).J1 = 0 := by
    simp [AnalogCircuit.iterBody, AnalogCircuit.sumV, hv, hl,
      Resistor.GetVoltage, Capacitor.GetVoltage, Inductor.GetVoltage]
  have h₁ : ¬ (c.iterBody 0 t
      { I1 := 0, J1 := 0.0, J0 := 0.0, alpha := 0.01, iterations := 0 }).iterations
      > maxIterations := by
    rw [iterBody_iterations]
    simp [maxIterations]
  have h₂ : ¬ fabs (c.iterBody 0 t
      { I1 := 0, J1 := 0.0, J0 := 0.0, alpha := 0.01, iterations := 0 }).J1
      > c.tolerance := by
    rw [hJ]
    simpa [fabs] using htol
  rw [AnalogCircuit.CostFunctionV, costLoop_converged _ _ _ _ h₁ h₂,
    iterBody_I1_of_within _ _ _ _ h₂, hJ, iterBody_iterations]

theorem runStep_tolerance (sn : ℚ → ℚ) (c : AnalogCircuit) :
    (c.runStep sn).2.tolerance = c.tolerance := by
  by_cases h : c.timeMax ≤ c.currentTime <;> simp [AnalogCircuit.runStep, h]

theorem runStep_Vpeak (sn : ℚ → ℚ) (c : AnalogCircuit) :
    (c.runStep sn).2.Vpeak = c.Vpeak := by
  by_cases h : c.timeMax ≤ c.currentTime <;> simp [AnalogCircuit.runStep, h]

theorem V_input_of_Vpeak_zero (sn : ℚ → ℚ) (c : AnalogCircuit) (h : c.Vpeak = 0) :
    c.V_input sn = 0 := by
  simp only [AnalogCircuit.V_input, h, zero_mul]
  split_ifs <;> norm_num

/-- A performed step of a circuit at rest with source voltage 0 accepts current
0 and leaves the circuit at rest. -/
theorem runStep_at_rest (sn : ℚ → ℚ) (c : AnalogCircuit) (hlt : c.currentTime < c.timeMax)
    (hV : c.V_input sn = 0) (hI : c.I = 0) (hv : c.capacitor.voltage = 0)
    (hl : c.inductor.lastCurrent = 0) (htol : 0 ≤ c.tolerance) :
    (c.runStep sn).2.I = 0 ∧ (c.runStep sn).2.capacitor.voltage = 0 ∧
      (c.runStep sn).2.inductor.lastCurrent = 0 := by
  have hI' : (c.runStep sn).2.I = 0 := by
    rw [runStep_I_of_lt sn c hlt, hV, hI, solve_zero_at_rest c c.T hv hl htol]
  obtain ⟨-, hC, hL⟩ := runStep_components_of_lt sn c hlt
  refine ⟨hI', ?_, ?_⟩
  · rw [hC, hI']
    simp [Capacitor.UpdateVoltage, hv]
  · rw [hL, hI']
    rfl

/-- Witness for C13: the default circuit with peak voltage 0 accepts current 0 in
its first two steps, and the second records inductor voltage 0. -/
theorem inductor_steady_state_voltage_zero_witness :
    (((AnalogCircuit.fresh 20 0.05 0.00007 50 0 0.1).runStep sinPoly).2.runStep sinPoly).2.I =
      ((AnalogCircuit.fresh 20 0.05 0.00007 50 0 0.1).runStep sinPoly).2.I ∧
    (((AnalogCircuit.fresh 20 0.05 0.00007 50 0 0.1).runStep sinPoly).2.runStep
      sinPoly).2.voltageHistory2 =
      ((AnalogCircuit.fresh 20 0.05 0.00007 50 0 0.1).runStep sinPoly).2.voltageHistory2
        ++ [0] :=
  have h₁ : (AnalogCircuit.fresh 20 0.05 0.00007 50 0 0.1).currentTime <
      (AnalogCircuit.fresh 20 0.05 0.00007 50 0 0.1).timeMax :=
    fresh_clock_lt _ _ _ _ _ _ (by norm_num)
  have h₂ : ((AnalogCircuit.fresh 20 0.05 0.00007 50 0 0.1).runStep sinPoly).2.currentTime <
      ((AnalogCircuit.fresh 20 0.05 0.00007 50 0 0.1).runStep sinPoly).2.timeMax := by
    rw [runStep_time_of_lt _ _ h₁, runStep_timeMax]
    show dadd 0 0.0001 < toDouble 0.1
    decide!
  have htol : (0 : ℚ) ≤ (AnalogCircuit.fresh 20 0.05 0.00007 50 0 0.1).tolerance := by
    norm_num [AnalogCircuit.fresh]
  have r₁ := runStep_at_rest sinPoly (AnalogCircuit.fresh 20 0.05 0.00007 50 0 0.1) h₁
    (V_input_of_Vpeak_zero _ _ rfl) rfl rfl rfl htol
  have r₂ := runStep_at_rest sinPoly
    ((AnalogCircuit.fresh 20 0.05 0.00007 50 0 0.1).runStep sinPoly).2 h₂
    (V_input_of_Vpeak_zero _ _ (by rw [runStep_Vpeak]; rfl)) r₁.1 r₁.2.1 r₁.2.2
    (by rw [runStep_tolerance]; exact htol)
  have hI : (((AnalogCircuit.fresh 20 0.05 0.00007 50 0 0.1).runStep sinPoly).2.runStep
      sinPoly).2.I = ((AnalogCircuit.fresh 20 0.05 0.00007 50 0 0.1).runStep sinPoly).2.I := by
    rw [r₂.1, r₁.1]
  ⟨hI, (inductor_steady_state_voltage_zero sinPoly).1 _ h₁ h₂ hI⟩

/-- Claim C15. For every parameter set with `simTime > 0`, and a sine with
`sin 0 = 0`, the first step of a freshly built circuit has source voltage
`Vpeak * sin 0 = 0`; the solver leaves through the loop condition after a single
evaluation with accepted current 0; the step records resistor, capacitor and
inductor voltage 0 and source voltage 0, so the recorded sum is within the
tolerance 0.001 of the source voltage. -/
theorem first_step_converges_at_zero (sn : ℚ → ℚ) (hsn : sn 0 = 0)
    (R L C f Vp simTime : ℚ) (hpos : 0 < simTime) :
    (AnalogCircuit.fresh R L C f Vp simTime).V_input sn = 0 ∧
    (AnalogCircuit.fresh R L C f Vp simTime).CostFunctionV
        (AnalogCircuit.fresh R L C f Vp simTime).I
        ((AnalogCircuit.fresh R L C f Vp simTime).V_input sn)
        (AnalogCircuit.fresh R L C f Vp simTime).T =
      { current := 0, J1 := 0, iterations := 1, evaluatedAt := 0, warning := none,
        capExit := false } ∧
    ((AnalogCircuit.fresh R L C f Vp simTime).runStep sn).1 = true ∧
    ((AnalogCircuit.fresh R L C f Vp simTime).runStep sn).2.I = 0 ∧
    ((AnalogCircuit.fresh R L C f Vp simTime).runStep sn).2.voltageHistory0 = [0] ∧
    ((AnalogCircuit.fresh R L C f Vp simTime).runStep sn).2.voltageHistory1 = [0] ∧
    ((AnalogCircuit.fresh R L C f Vp simTime).runStep sn).2.voltageHistory2 = [0] ∧
    ((AnalogCircuit.fresh R L C f Vp simTime).runStep sn).2.inputHistory = [0] ∧
    (AnalogCircuit.fresh R L C f Vp simTime).tolerance = 0.001 ∧
    (∃ vR vC vL vin : ℚ,
      ((AnalogCircuit.fresh R L C f Vp simTime).runStep sn).2.voltageHistory0 = [vR] ∧
      ((AnalogCircuit.fresh R L C f Vp simTime).runStep sn).2.voltageHistory1 = [vC] ∧
      ((AnalogCircuit.fresh R L C f Vp simTime).runStep sn).2.voltageHistory2 = [vL] ∧
      ((AnalogCircuit.fresh R L C f Vp simTime).runStep sn).2.inputHistory = [vin] ∧
      |vR + vC + vL - vin| ≤ 0.001) := by
  have hlt : (AnalogCircuit.fresh R L C f Vp simTime).currentTime <
      (AnalogCircuit.fresh R L C f Vp simTime).timeMax := fresh_clock_lt R L C f Vp simTime hpos
  have hV : (AnalogCircuit.fresh R L C f Vp simTime).V_input sn = 0 := by
    simp only [AnalogCircuit.V_input, AnalogCircuit.fresh, mul_zero, hsn]
    split_ifs <;> norm_num
  have hsolve : (AnalogCircuit.fresh R L C f Vp simTime).CostFunctionV
      (AnalogCircuit.fresh R L C f Vp simTime).I
      ((AnalogCircuit.fresh R L C f Vp simTime).V_input sn)
      (AnalogCircuit.fresh R L C f Vp simTime).T =
      { current := 0, J1 := 0, iterations := 1, evaluatedAt := 0, warning := none,
        capExit := false } := by
    rw [hV]
    exact fresh_solve_zero R L C f Vp simTime _
  have hI : ((AnalogCircuit.fresh R L C f Vp simTime).runStep sn).2.I = 0 := by
    rw [runStep_I_of_lt sn _ hlt, hsolve]
  obtain ⟨r0, r1, r2, -⟩ := runStep_record_of_lt sn _ hlt
  have h0 : ((AnalogCircuit.fresh R L C f Vp simTime).runStep sn).2.voltageHistory0 = [0] := by
    rw [r0, hI]
    simp [AnalogCircuit.fresh, Resistor.GetVoltage]
  have h1 : ((AnalogCircuit.fresh R L C f Vp simTime).runStep sn).2.voltageHistory1 = [0] := by
    rw [r1]
    simp [AnalogCircuit.fresh, Capacitor.GetVoltage]
  have h2 : ((AnalogCircuit.fresh R L C f Vp simTime).runStep sn).2.voltageHistory2 = [0] := by
    rw [r2, hI]
    simp [AnalogCircuit.fresh, Inductor.GetVoltage]
  have h3 : ((AnalogCircuit.fresh R L C f Vp simTime).runStep sn).2.inputHistory = [0] := by
    simp [AnalogCircuit.runStep, not_le.mpr hlt, hV]
    rfl
  exact ⟨hV, hsolve, (runStep_fst_true_iff sn _).2 hlt, hI, h0, h1, h2, h3, rfl,
    0, 0, 0, 0, h0, h1, h2, h3, by norm_num⟩

/-- Witness for C15: the default scenario under `sinPoly`. -/
theorem first_step_converges_at_zero_witness :
    sinPoly 0 = 0 ∧ (0 : ℚ) < 0.1 ∧
    ((AnalogCircuit.fresh 20 0.05 0.00007 50 10 0.1).runStep sinPoly).2.I = 0 ∧
    ((AnalogCircuit.fresh 20 0.05 0.00007 50 10 0.1).runStep sinPoly).2.inputHistory = [0] :=
  ⟨by norm_num [sinPoly], by norm_num,
    (first_step_converges_at_zero sinPoly (by norm_num [sinPoly]) 20 0.05 0.00007 50 10 0.1
      (by norm_num)).2.2.2.1,
    (first_step_converges_at_zero sinPoly (by norm_num [sinPoly]) 20 0.05 0.00007 50 10 0.1
      (by norm_num)).2.2.2.2.2.2.2.1⟩

/-! ## The source voltage -/

theorem runStep_input_of_lt (sn : ℚ → ℚ) (c : AnalogCircuit) (h : c.currentTime < c.timeMax) :
    (c.runStep sn).2.inputHistory = c.inputHistory ++ [c.V_input sn] ∧
      (c.runStep sn).2.timeHistory = c.timeHistory ++ [toFloat c.currentTime] := by
  simp [AnalogCircuit.runStep, not_le.mpr h]

/-- With a positive time step, a clock that is a non-negative double stays one and
never goes back. -/
theorem runSteps_clock_mono (sn : ℚ → ℚ) (c : AnalogCircuit) (hT : 0 < c.T)
    (h0 : 0 ≤ c.currentTime) (hd : toDouble c.currentTime = c.currentTime) (j : ℕ) :
    c.currentTime ≤ (c.runSteps sn j).currentTime ∧
      toDouble (c.runSteps sn j).currentTime = (c.runSteps sn j).currentTime := by
  induction j with
  | zero => exact ⟨le_refl _, hd⟩
  | succ j ih =>
    obtain ⟨i1, i2⟩ := ih
    rw [runSteps_succ]
    by_cases h : (c.runSteps sn j).currentTime < (c.runSteps sn j).timeMax
    · rw [runStep_time_of_lt sn _ h, runSteps_T]
      obtain ⟨g1, -, g3⟩ := dadd_ge (c.runSteps sn j).currentTime c.T (le_trans h0 i1) i2 hT.le
      exact ⟨le_trans i1 g1, g3⟩
    · rw [runStep_done sn _ (not_lt.mp h)]
      exact ⟨i1, i2⟩

theorem V_input_of_decay (sn : ℚ → ℚ) (c : AnalogCircuit)
    (h : dmul 0.6 c.timeMax ≤ c.currentTime) : c.V_input sn = 0 := by
  simp only [AnalogCircuit.V_input, if_neg (not_lt.mpr h)]
  norm_num

/-- From a state in the decay phase on, every call appends nothing or a 0 to the
input history. -/
theorem runSteps_input_of_decay (sn : ℚ → ℚ) (c : AnalogCircuit) (hT : 0 < c.T)
    (h0 : 0 ≤ c.currentTime) (hd : toDouble c.currentTime = c.currentTime)
    (h : dmul 0.6 c.timeMax ≤ c.currentTime) (j : ℕ) :
    ∃ zs : List ℚ, (c.runSteps sn j).inputHistory = c.inputHistory ++ zs ∧
      ∀ z ∈ zs, z = 0 := by
  induction j with
  | zero => exact ⟨[], by simp [AnalogCircuit.runSteps], by simp⟩
  | succ j ih =>
    obtain ⟨zs, hz, hall⟩ := ih
    rw [runSteps_succ]
    by_cases hlt : (c.runSteps sn j).currentTime < (c.runSteps sn j).timeMax
    · have hdec : dmul 0.6 (c.runSteps sn j).timeMax ≤ (c.runSteps sn j).currentTime := by
        rw [runSteps_timeMax]
        exact le_trans h (runSteps_clock_mono sn c hT h0 hd j).1
      refine ⟨zs ++ [0], ?_, ?_⟩
      · rw [(runStep_input_of_lt sn _ hlt).1, V_input_of_decay sn _ hdec, hz,
          List.append_assoc]
      · intro z hzmem
        rcases List.mem_append.mp hzmem with hm | hm
        · exact hall z hm
        · simpa using hm
    · refine ⟨zs, ?_, hall⟩
      rw [runStep_done sn _ (not_lt.mp hlt)]
      exact hz

/-- Every state of a run of a freshly built circuit has a clock that is a
non-negative double. -/
theorem fresh_clock_is_double (sn : ℚ → ℚ) (R L C f Vp simTime : ℚ) (j : ℕ) :
    0 ≤ ((AnalogCircuit.fresh R L C f Vp simTime).runSteps sn j).currentTime ∧
      toDouble ((AnalogCircuit.fresh R L C f Vp simTime).runSteps sn j).currentTime =
        ((AnalogCircuit.fresh R L C f Vp simTime).runSteps sn j).currentTime := by
  have h := runSteps_clock_mono sn (AnalogCircuit.fresh R L C f Vp simTime)
    (show (0 : ℚ) < 0.0001 by norm_num) (le_refl (0 : ℚ)) toDouble_zero j
  exact ⟨h.1, h.2⟩

/-! ### The run with end time 0.005, by evaluation -/

/-- The double nearest to 0.005 in units of `2^-66`. -/
theorem toDouble_decay_end :
    toDouble 0.005 = ((368934881474191040 : ℕ) : ℚ) / 2 ^ 66 := by
  decide!

theorem decay_clock_runs_50 :
    runsExactlyNum 7378697629483821 368934881474191040 50 0 = true := by
  decide!

theorem clockNum_30 : clockNum 7378697629483821 30 0 = 221360928884514528 := by
  decide!

/-- The clock after 30 additions of 0.0001 is just below 0.003. -/
theorem clock_after_30 :
    clockAfter 0.0001 30 0 = 6917529027641079 / 2305843009213693952 := by
  rw [clockAfter_zero_eq_clockNum 0.0001 7378697629483821 66 toDouble_step (by norm_num),
    clockNum_30]
  norm_num

theorem clock_after_30_facts :
    (6917529027641079 / 2305843009213693952 : ℚ) < dmul 0.6 (toDouble 0.005) ∧
    toFloat (6917529027641079 / 2305843009213693952) = 6442451 / 2147483648 ∧
    dmul 0.6 (toDouble 0.005) ≤ 6442451 / 2147483648 ∧
    (0.6 : ℚ) * toDouble 0.005 ≤ 6442451 / 2147483648 := by
  decide!

/-- Claim C14, counterexample. With simTime = 0.005 the step performed by call
number 30 records the time stamp 6442451/2147483648 (about 0.003000000026), which
is at or past `0.6 * timeMax` - as the decimal product 0.003, as the product with
the stored end time and as the double product alike - and yet records a source
voltage above 8 V: its clock, 30 additions of 0.0001, is still below the
threshold, and the stamp is the clock rounded to `float`. -/
theorem stamp_past_threshold_records_sine :
    (((AnalogCircuit.fresh 20 0.05 0.00007 50 10 0.005).runSteps sinPoly 30).runStep
      sinPoly).1 = true ∧
    (((AnalogCircuit.fresh 20 0.05 0.00007 50 10 0.005).runSteps sinPoly 30).runStep
      sinPoly).2.timeHistory =
      ((AnalogCircuit.fresh 20 0.05 0.00007 50 10 0.005).runSteps sinPoly 30).timeHistory ++
        [6442451 / 2147483648] ∧
    (0.6 : ℚ) * 0.005 ≤ 6442451 / 2147483648 ∧
    0.6 * ((AnalogCircuit.fresh 20 0.05 0.00007 50 10 0.005).runSteps sinPoly 30).timeMax ≤
      6442451 / 2147483648 ∧
    dmul 0.6 ((AnalogCircuit.fresh 20 0.05 0.00007 50 10 0.005).runSteps sinPoly 30).timeMax ≤
      6442451 / 2147483648 ∧
    ∃ v : ℚ,
      (((AnalogCircuit.fresh 20 0.05 0.00007 50 10 0.005).runSteps sinPoly 30).runStep
        sinPoly).2.inputHistory =
        ((AnalogCircuit.fresh 20 0.05 0.00007 50 10 0.005).runSteps sinPoly 30).inputHistory
          ++ [v] ∧ 8 < v := by
  have hbelow := (clock_runs_of_num 0.005 _ 50 toDouble_decay_end decay_clock_runs_50).1
  have hpre : ∀ m : ℕ, m < 30 →
      clockAfter (AnalogCircuit.fresh 20 0.05 0.00007 50 10 0.005).T m
        (AnalogCircuit.fresh 20 0.05 0.00007 50 10 0.005).currentTime <
      (AnalogCircuit.fresh 20 0.05 0.00007 50 10 0.005).timeMax :=
    fun m hm => hbelow m (by omega)
  obtain ⟨ht, -⟩ := runSteps_progress sinPoly _ 30 hpre
  have hM := runSteps_timeMax sinPoly 30 (AnalogCircuit.fresh 20 0.05 0.00007 50 10 0.005)
  have ht' : ((AnalogCircuit.fresh 20 0.05 0.00007 50 10 0.005).runSteps sinPoly 30).currentTime
      = 6917529027641079 / 2305843009213693952 := ht.trans clock_after_30
  have hM' : ((AnalogCircuit.fresh 20 0.05 0.00007 50 10 0.005).runSteps sinPoly 30).timeMax
      = toDouble 0.005 := hM
  have hF : ((AnalogCircuit.fresh 20 0.05 0.00007 50 10 0.005).runSteps sinPoly 30).freq
      = 50 := runSteps_freq_Vpeak sinPoly 30 _ |>.1
  have hV : ((AnalogCircuit.fresh 20 0.05 0.00007 50 10 0.005).runSteps sinPoly 30).Vpeak
      = 10 := runSteps_freq_Vpeak sinPoly 30 _ |>.2
  generalize (AnalogCircuit.fresh 20 0.05 0.00007 50 10 0.005).runSteps sinPoly 30 = c
    at ht' hM' hF hV ⊢
  obtain ⟨f1, f2, f3, f4⟩ := clock_after_30_facts
  have hlt : c.currentTime < c.timeMax := by
    rw [ht', hM', ← clock_after_30]
    exact hbelow 30 (by norm_num)
  refine ⟨(runStep_fst_true_iff _ c).2 hlt, ?_, by norm_num, ?_, ?_, ?_⟩
  · rw [(runStep_input_of_lt _ c hlt).2, ht', f2]
  · rw [hM']
    exact f4
  · rw [hM']
    exact f3
  · refine ⟨c.V_input sinPoly, (runStep_input_of_lt _ c hlt).1, ?_⟩
    have hsine : c.currentTime < dmul 0.6 c.timeMax := by
      rw [ht', hM']
      exact f1
    have hv : c.V_input sinPoly = c.Vpeak * sinPoly (2.0 * M_PI * c.freq * c.currentTime) := by
      simp only [AnalogCircuit.V_input]
      exact if_pos hsine
    rw [hv, ht', hF, hV]
    norm_num [sinPoly, M_PI]

/-- Claim C14, amended. A performed step uses (as the solver target) and records
the source voltage `Vpeak * sin(2 * M_PI * freq * currentTime)` when the clock
`currentTime` is below the double product `0.6 * timeMax` and 0 otherwise; the
time it records is the clock rounded to `float`. Hence in a run with `T > 0` and
`timeMax > 0` whose clock is a non-negative double - as in every run of a freshly
built circuit - from a state whose clock is at or past the double product
`0.6 * timeMax` on, the step performed there and every later performed step
record input voltage 0. -/
theorem source_voltage_sine_then_zero (sn : ℚ → ℚ) :
    (∀ c : AnalogCircuit, c.currentTime < c.timeMax →
      c.V_input sn = (if c.currentTime < dmul 0.6 c.timeMax
        then c.Vpeak * sn (2 * M_PI * c.freq * c.currentTime) else 0) ∧
      (c.runStep sn).2.I = (c.CostFunctionV c.I (c.V_input sn) c.T).current ∧
      (c.runStep sn).2.inputHistory = c.inputHistory ++ [c.V_input sn] ∧
      (c.runStep sn).2.timeHistory = c.timeHistory ++ [toFloat c.currentTime]) ∧
    (∀ c : AnalogCircuit, 0 < c.T → 0 < c.timeMax → 0 ≤ c.currentTime →
      toDouble c.currentTime = c.currentTime → dmul 0.6 c.timeMax ≤ c.currentTime →
      ∀ j : ℕ,
        ((c.runSteps sn j).currentTime < (c.runSteps sn j).timeMax →
          dmul 0.6 c.timeMax ≤ (c.runSteps sn j).currentTime ∧
          ((c.runSteps sn j).runStep sn).2.inputHistory =
            (c.runSteps sn j).inputHistory ++ [0]) ∧
        ∃ zs : List ℚ, (c.runSteps sn j).inputHistory = c.inputHistory ++ zs ∧
          ∀ z ∈ zs, z = 0) ∧
    (∀ (R L C f Vp simTime : ℚ) (j : ℕ),
      0 < ((AnalogCircuit.fresh R L C f Vp simTime).runSteps sn j).T ∧
      0 ≤ ((AnalogCircuit.fresh R L C f Vp simTime).runSteps sn j).currentTime ∧
      toDouble ((AnalogCircuit.fresh R L C f Vp simTime).runSteps sn j).currentTime =
        ((AnalogCircuit.fresh R L C f Vp simTime).runSteps sn j).currentTime) := by
  refine ⟨?_, ?_, ?_⟩
  · intro c hlt
    refine ⟨?_, runStep_I_of_lt sn c hlt, (runStep_input_of_lt sn c hlt).1,
      (runStep_input_of_lt sn c hlt).2⟩
    simp only [AnalogCircuit.V_input]
    split_ifs <;> norm_num
  · intro c hT _ h0 hd hdec j
    refine ⟨?_, runSteps_input_of_decay sn c hT h0 hd hdec j⟩
    intro hlt
    have hj : dmul 0.6 c.timeMax ≤ (c.runSteps sn j).currentTime :=
      le_trans hdec (runSteps_clock_mono sn c hT h0 hd j).1
    refine ⟨hj, ?_⟩
    rw [(runStep_input_of_lt sn _ hlt).1,
      V_input_of_decay sn _ (by rw [runSteps_timeMax]; exact hj)]
  · intro R L C f Vp simTime j
    refine ⟨?_, fresh_clock_is_double sn R L C f Vp simTime j⟩
    rw [runSteps_T]
    show (0 : ℚ) < 0.0001
    norm_num

/-- Witness for C14 (amended): with end time 0.00015 the second step starts at the
double 0.0001, past the double product `0.6 * timeMax`, and records input
voltage 0. -/
theorem source_voltage_sine_then_zero_witness :
    (0 : ℚ) < ((AnalogCircuit.fresh 20 0.05 0.00007 50 10 0.00015).runStep sinPoly).2.T ∧
    dmul 0.6 ((AnalogCircuit.fresh 20 0.05 0.00007 50 10 0.00015).runStep sinPoly).2.timeMax ≤
      ((AnalogCircuit.fresh 20 0.05 0.00007 50 10 0.00015).runStep sinPoly).2.currentTime ∧
    (((AnalogCircuit.fresh 20 0.05 0.00007 50 10 0.00015).runStep sinPoly).2.runStep
      sinPoly).2.inputHistory =
      ((AnalogCircuit.fresh 20 0.05 0.00007 50 10 0.00015).runStep sinPoly).2.inputHistory
        ++ [0] :=
  have h₀ : (AnalogCircuit.fresh 20 0.05 0.00007 50 10 0.00015).currentTime <
      (AnalogCircuit.fresh 20 0.05 0.00007 50 10 0.00015).timeMax :=
    fresh_clock_lt _ _ _ _ _ _ (by norm_num)
  have hT : (0 : ℚ) <
      ((AnalogCircuit.fresh 20 0.05 0.00007 50 10 0.00015).runStep sinPoly).2.T := by
    rw [runStep_T]
    show (0 : ℚ) < 0.0001
    norm_num
  have hM : (0 : ℚ) <
      ((AnalogCircuit.fresh 20 0.05 0.00007 50 10 0.00015).runStep sinPoly).2.timeMax := by
    rw [runStep_timeMax]
    exact toDouble_pos _ (by norm_num)
  have hc := fresh_clock_is_double sinPoly 20 0.05 0.00007 50 10 0.00015 1
  have hdec : dmul 0.6
      ((AnalogCircuit.fresh 20 0.05 0.00007 50 10 0.00015).runStep sinPoly).2.timeMax ≤
      ((AnalogCircuit.fresh 20 0.05 0.00007 50 10 0.00015).runStep sinPoly).2.currentTime := by
    rw [runStep_timeMax, runStep_time_of_lt _ _ h₀]
    show dmul 0.6 (toDouble 0.00015) ≤ dadd 0 0.0001
    decide!
  have hlt : ((AnalogCircuit.fresh 20 0.05 0.00007 50 10 0.00015).runStep sinPoly).2.currentTime
      < ((AnalogCircuit.fresh 20 0.05 0.00007 50 10 0.00015).runStep sinPoly).2.timeMax := by
    rw [runStep_timeMax, runStep_time_of_lt _ _ h₀]
    show dadd 0 0.0001 < toDouble 0.00015
    decide!
  ⟨hT, hdec,
    (((source_voltage_sine_then_zero sinPoly).2.1 _ hT hM hc.1 hc.2 hdec 0).1 hlt).2⟩

/-! ## The step-size rule of the solver -/

/-- The progress test of `CostFunctionV` holds exactly when the new mismatch is
not below the previous one. -/
theorem progress_test_iff (J0 J1 : ℚ) :
    (fabs (J0 - J1) ≠ (J0 - J1) ∨ J0 = J1) ↔ J1 ≥ J0 := by
  rw [fabs_eq_abs]
  constructor
  · rintro (h | h)
    · by_contra hlt
      exact h (abs_of_nonneg (by linarith))
    · exact h.le
  · intro h
    rcases eq_or_lt_of_le h with heq | hlt
    · exact Or.inr heq
    · left
      rw [abs_of_neg (by linarith)]
      intro h'
      linarith

/-- Claim C16. The test `(fabs(J0 - J1) != (J0 - J1)) || J0 == J1` holds if and
only if `J1 >= J0`. In every pass of the loop `alpha` before the underflow reset
is `alpha / 2` when the new mismatch `J1` is not below `J0` and `alpha`
otherwise; `J0` is 0 in the first pass and, whenever the loop goes on, the
mismatch of the pass just made. -/
theorem alpha_halved_iff_mismatch_not_decreased :
    (∀ J0 J1 : ℚ, (fabs (J0 - J1) ≠ (J0 - J1) ∨ J0 = J1) ↔ J1 ≥ J0) ∧
    (∀ (c : AnalogCircuit) (v t : ℚ) (s : SolverState),
      (c.iterBody v t s).alpha =
        (if halveUnlessDecreased s.J0 (c.iterBody v t s).J1 s.alpha < c.tolerance / 1000000
         then 0.01 else halveUnlessDecreased s.J0 (c.iterBody v t s).J1 s.alpha)) ∧
    (∀ (c : AnalogCircuit) (v t : ℚ) (s : SolverState),
      fabs (c.iterBody v t s).J1 > c.tolerance →
        (c.iterBody v t s).J0 = (c.iterBody v t s).J1) ∧
    (∀ (c : AnalogCircuit) (current v t : ℚ),
      c.CostFunctionV current v t =
        c.costLoop v t { I1 := current, J1 := 0, J0 := 0, alpha := 0.01, iterations := 0 }) := by
  refine ⟨progress_test_iff, ?_, ?_, ?_⟩
  · intro c v t s
    have hiff := progress_test_iff s.J0 (c.sumV s.I1 t - v)
    by_cases hge : c.sumV s.I1 t - v ≥ s.J0
    · have htest := hiff.2 hge
      simp only [AnalogCircuit.iterBody, halveUnlessDecreased, if_pos htest, if_pos hge]
      norm_num
    · have htest : ¬ (fabs (s.J0 - (c.sumV s.I1 t - v)) ≠ (s.J0 - (c.sumV s.I1 t - v)) ∨
          s.J0 = c.sumV s.I1 t - v) := fun h => hge (hiff.1 h)
      simp only [AnalogCircuit.iterBody, halveUnlessDecreased, if_neg htest, if_neg hge]
  · intro c v t s h
    rw [iterBody_J1] at h
    simp only [AnalogCircuit.iterBody, if_pos h]
  · intro c current v t
    simp only [AnalogCircuit.CostFunctionV]
    norm_num

/-- Witness for C16: the first pass of the default circuit from current 6 with
target 0 is out of tolerance, so the next pass starts with `J0` equal to this
pass's mismatch. -/
theorem alpha_halved_iff_mismatch_not_decreased_witness :
    fabs ((AnalogCircuit.fresh 20 0.05 0.00007 50 10 0.1).iterBody 0 0.0001
      { I1 := 6, J1 := 0, J0 := 0, alpha := 0.01, iterations := 0 }).J1 >
      (AnalogCircuit.fresh 20 0.05 0.00007 50 10 0.1).tolerance ∧
    ((AnalogCircuit.fresh 20 0.05 0.00007 50 10 0.1).iterBody 0 0.0001
      { I1 := 6, J1 := 0, J0 := 0, alpha := 0.01, iterations := 0 }).J0 =
    ((AnalogCircuit.fresh 20 0.05 0.00007 50 10 0.1).iterBody 0 0.0001
      { I1 := 6, J1 := 0, J0 := 0, alpha := 0.01, iterations := 0 }).J1 :=
  have h : fabs ((AnalogCircuit.fresh 20 0.05 0.00007 50 10 0.1).iterBody 0 0.0001
      { I1 := 6, J1 := 0, J0 := 0, alpha := 0.01, iterations := 0 }).J1 >
      (AnalogCircuit.fresh 20 0.05 0.00007 50 10 0.1).tolerance := by
    rw [iterBody_J1, default_sumV]
    norm_num [fabs, AnalogCircuit.fresh]
  ⟨h, alpha_halved_iff_mismatch_not_decreased.2.2.1 _ 0 0.0001 _ h⟩

/-! ## The final mismatch and the returned current -/

theorem iterBody_alpha_pos (c : AnalogCircuit) (v t : ℚ) (s : SolverState)
    (h : 0 < s.alpha) : 0 < (c.iterBody v t s).alpha := by
  simp only [AnalogCircuit.iterBody]
  split_ifs <;> first | exact h | (norm_num; try exact h)

/-- A pass that finds the mismatch out of tolerance moves the guess by a positive
step, up when the mismatch is negative and down otherwise. -/
theorem iterBody_I1_of_outside (c : AnalogCircuit) (v t : ℚ) (s : SolverState)
    (ha : 0 < s.alpha) (h : fabs (c.iterBody v t s).J1 > c.tolerance) :
    ∃ a : ℚ, 0 < a ∧ (c.iterBody v t s).I1 =
      if (c.iterBody v t s).J1 < 0 then s.I1 + a else s.I1 - a := by
  rw [iterBody_J1] at h
  by_cases htest : fabs (s.J0 - (c.sumV s.I1 t - v)) ≠ (s.J0 - (c.sumV s.I1 t - v)) ∨
      s.J0 = c.sumV s.I1 t - v
  · refine ⟨s.alpha / 2.0, by norm_num; exact ha, ?_⟩
    simp only [AnalogCircuit.iterBody, if_pos htest, if_pos h]
  · refine ⟨s.alpha, ha, ?_⟩
    simp only [AnalogCircuit.iterBody, if_neg htest, if_pos h]

/-- Whatever the exit, a final mismatch within tolerance means the returned
current is the one evaluated last. -/
theorem costLoop_current_of_within (c : AnalogCircuit) (v t : ℚ) (s : SolverState)
    (h : fabs (c.costLoop v t s).J1 ≤ c.tolerance) :
    (c.costLoop v t s).current = (c.costLoop v t s).evaluatedAt := by
  induction s using AnalogCircuit.costLoop.induct c v t with
  | case1 s h₁ =>
    rw [costLoop_cap c v t s h₁] at h ⊢
    exact iterBody_I1_of_within c v t s (not_lt.mpr h)
  | case2 s h₁ h₂ ih =>
    rw [costLoop_again c v t s h₁ h₂] at h ⊢
    exact ih h
  | case3 s h₁ h₂ =>
    rw [costLoop_converged c v t s h₁ h₂]
    exact iterBody_I1_of_within c v t s h₂

/-- A final mismatch out of tolerance means the exit was forced by the safety
check, and the returned current is the last evaluated one moved by one more
positive step. -/
theorem costLoop_current_of_outside (c : AnalogCircuit) (v t : ℚ) (s : SolverState)
    (ha : 0 < s.alpha) (h : fabs (c.costLoop v t s).J1 > c.tolerance) :
    (c.costLoop v t s).capExit = true ∧
      ∃ a : ℚ, 0 < a ∧ (c.costLoop v t s).current =
        if (c.costLoop v t s).J1 < 0 then (c.costLoop v t s).evaluatedAt + a
        else (c.costLoop v t s).evaluatedAt - a := by
  induction s using AnalogCircuit.costLoop.induct c v t with
  | case1 s h₁ =>
    rw [costLoop_cap c v t s h₁] at h ⊢
    exact ⟨rfl, iterBody_I1_of_outside c v t s ha h⟩
  | case2 s h₁ h₂ ih =>
    rw [costLoop_again c v t s h₁ h₂] at h ⊢
    exact ih (iterBody_alpha_pos c v t s ha) h
  | case3 s h₁ h₂ =>
    rw [costLoop_converged c v t s h₁ h₂] at h
    exact absurd h h₂

/-- Claim C17, counterexample. On the default circuit `CostFunctionV(6, 0, 0.0001)`
is stopped by the safety check with final mismatch 520 and returns the current
0.995, whose residual is 517.4: the reported mismatch belongs to the current
1, evaluated before the last move. -/
theorem final_mismatch_not_of_returned_current :
    ((AnalogCircuit.fresh 20 0.05 0.00007 50 10 0.1).CostFunctionV 6 0 0.0001).capExit = true ∧
    ((AnalogCircuit.fresh 20 0.05 0.00007 50 10 0.1).CostFunctionV 6 0 0.0001).J1 = 520 ∧
    ((AnalogCircuit.fresh 20 0.05 0.00007 50 10 0.1).CostFunctionV 6 0 0.0001).warning
      = some 520 ∧
    ((AnalogCircuit.fresh 20 0.05 0.00007 50 10 0.1).CostFunctionV 6 0 0.0001).current
      = 0.995 ∧
    (AnalogCircuit.fresh 20 0.05 0.00007 50 10 0.1).sumV
      ((AnalogCircuit.fresh 20 0.05 0.00007 50 10 0.1).CostFunctionV 6 0 0.0001).current 0.0001
      - 0 = 517.4 ∧
    ((AnalogCircuit.fresh 20 0.05 0.00007 50 10 0.1).CostFunctionV 6 0 0.0001).J1 ≠
      (AnalogCircuit.fresh 20 0.05 0.00007 50 10 0.1).sumV
        ((AnalogCircuit.fresh 20 0.05 0.00007 50 10 0.1).CostFunctionV 6 0 0.0001).current
        0.0001 - 0 := by
  rw [default_solver_hits_cap 6 (by norm_num)]
  simp only [default_sumV]
  norm_num [fabs]

/-- Claim C17, amended. On every exit of `CostFunctionV` the final mismatch `J1`
(the value the warning prints) is the residual of the trial current evaluated
last. When `|J1| <= tolerance` - on every exit through the loop condition, and on
a forced exit that finds the mismatch within tolerance - that current is the
returned one, so `J1` is the residual of the returned current. When
`|J1| > tolerance` the exit was forced at the iteration cap and the returned
current is the evaluated one moved by one more positive step (up for `J1 < 0`,
down otherwise), which was not evaluated. -/
theorem final_mismatch_is_residual_of_last_evaluated (c : AnalogCircuit)
    (current voltage timestep : ℚ) :
    (c.CostFunctionV current voltage timestep).J1 =
      c.sumV (c.CostFunctionV current voltage timestep).evaluatedAt timestep - voltage ∧
    ((c.CostFunctionV current voltage timestep).capExit = false →
      |(c.CostFunctionV current voltage timestep).J1| ≤ c.tolerance) ∧
    (|(c.CostFunctionV current voltage timestep).J1| ≤ c.tolerance →
      (c.CostFunctionV current voltage timestep).current =
        (c.CostFunctionV current voltage timestep).evaluatedAt ∧
      (c.CostFunctionV current voltage timestep).J1 =
        c.sumV (c.CostFunctionV current voltage timestep).current timestep - voltage) ∧
    (|(c.CostFunctionV current voltage timestep).J1| > c.tolerance →
      (c.CostFunctionV current voltage timestep).capExit = true ∧
      ∃ a : ℚ, 0 < a ∧ (c.CostFunctionV current voltage timestep).current =
        if (c.CostFunctionV current voltage timestep).J1 < 0
        then (c.CostFunctionV current voltage timestep).evaluatedAt + a
        else (c.CostFunctionV current voltage timestep).evaluatedAt - a) ∧
    (∀ w, (c.CostFunctionV current voltage timestep).warning = some w →
      w = (c.CostFunctionV current voltage timestep).J1) := by
  have hJ := costLoop_J1 c voltage timestep
    { I1 := current, J1 := 0.0, J0 := 0.0, alpha := 0.01, iterations := 0 }
  refine ⟨hJ, ?_, ?_, ?_, ?_⟩
  · intro h
    rw [← fabs_eq_abs]
    exact (costLoop_of_not_capExit c voltage timestep _ h).1
  · intro h
    rw [← fabs_eq_abs] at h
    have hc := costLoop_current_of_within c voltage timestep
      { I1 := current, J1 := 0.0, J0 := 0.0, alpha := 0.01, iterations := 0 } h
    refine ⟨hc, ?_⟩
    unfold AnalogCircuit.CostFunctionV
    rw [hc]
    exact hJ
  · intro h
    rw [← fabs_eq_abs] at h
    exact costLoop_current_of_outside c voltage timestep
      { I1 := current, J1 := 0.0, J0 := 0.0, alpha := 0.01, iterations := 0 }
      (by norm_num) h
  · intro w hw
    unfold AnalogCircuit.CostFunctionV at hw ⊢
    rw [costLoop_warning] at hw
    split_ifs at hw
    exact (Option.some.inj hw).symm

/-- Witness for C17 (amended): the first solver call of the default circuit ends
with mismatch 0, within tolerance, and returns the evaluated current. -/
theorem final_mismatch_is_residual_of_last_evaluated_witness :
    |((AnalogCircuit.fresh 20 0.05 0.00007 50 10 0.1).CostFunctionV 0 0 0.0001).J1| ≤
      (AnalogCircuit.fresh 20 0.05 0.00007 50 10 0.1).tolerance ∧
    ((AnalogCircuit.fresh 20 0.05 0.00007 50 10 0.1).CostFunctionV 0 0 0.0001).J1 =
      (AnalogCircuit.fresh 20 0.05 0.00007 50 10 0.1).sumV
        ((AnalogCircuit.fresh 20 0.05 0.00007 50 10 0.1).CostFunctionV 0 0 0.0001).current
        0.0001 - 0 :=
  have h : |((AnalogCircuit.fresh 20 0.05 0.00007 50 10 0.1).CostFunctionV 0 0 0.0001).J1| ≤
      (AnalogCircuit.fresh 20 0.05 0.00007 50 10 0.1).tolerance := by
    rw [fresh_solve_zero]
    norm_num [AnalogCircuit.fresh]
  ⟨h, ((final_mismatch_is_residual_of_last_evaluated
    (AnalogCircuit.fresh 20 0.05 0.00007 50 10 0.1) 0 0 0.0001).2.2.1 h).2⟩

/-! ## Kirchhoff's voltage law as a linear equation -/

/-- The voltage sum is affine in the trial current. -/
theorem sumV_affine (c : AnalogCircuit) (T I : ℚ) (hT : T ≠ 0) :
    c.sumV I T = c.slope T * I +
      (c.capacitor.voltage - c.inductor.inductance * c.inductor.lastCurrent / T) := by
  simp only [AnalogCircuit.sumV, AnalogCircuit.slope, Resistor.GetVoltage,
    Capacitor.GetVoltage, Inductor.GetVoltage]
  field_simp
  ring

/-- The residual at `I` is the slope times the distance to the exact solution. -/
theorem sumV_sub_target (c : AnalogCircuit) (T I V : ℚ) (hT : T ≠ 0) (hs : c.slope T ≠ 0) :
    c.sumV I T - V = c.slope T * (I - c.kvlSolution V T) := by
  have hk : c.kvlSolution V T = (V - c.capacitor.voltage +
      c.inductor.inductance * c.inductor.lastCurrent / T) / c.slope T := rfl
  rw [sumV_affine c T I hT, hk]
  field_simp
  ring

/-- Claim C18. For `R >= 0`, `L >= 0`, `T > 0` with `R + L/T > 0` the sum of the
component voltages is affine in the trial current with slope `R + L/T` and
strictly increasing, so `sumV(I) = Vtarget` holds exactly for
`I0 = (Vtarget - vC + L * lastCurrent / T) / (R + L/T)`; and whenever
`CostFunctionV` leaves through the loop condition the returned current satisfies
`|I - I0| <= tolerance / (R + L/T)`. -/
theorem kvl_linear_and_converged_current_close (c : AnalogCircuit) (T : ℚ)
    (_hR : 0 ≤ c.resistor.resistance) (_hL : 0 ≤ c.inductor.inductance) (hT : 0 < T)
    (hs : 0 < c.resistor.resistance + c.inductor.inductance / T) :
    (∀ I : ℚ, c.sumV I T = (c.resistor.resistance + c.inductor.inductance / T) * I +
      (c.capacitor.voltage - c.inductor.inductance * c.inductor.lastCurrent / T)) ∧
    (∀ I I' : ℚ, I < I' → c.sumV I T < c.sumV I' T) ∧
    (∀ V I : ℚ, c.sumV I T = V ↔
      I = (V - c.capacitor.voltage + c.inductor.inductance * c.inductor.lastCurrent / T)
        / (c.resistor.resistance + c.inductor.inductance / T)) ∧
    (∀ current V : ℚ, (c.CostFunctionV current V T).capExit = false →
      |(c.CostFunctionV current V T).current -
        (V - c.capacitor.voltage + c.inductor.inductance * c.inductor.lastCurrent / T)
          / (c.resistor.resistance + c.inductor.inductance / T)| ≤
        c.tolerance / (c.resistor.resistance + c.inductor.inductance / T)) := by
  have hT0 : T ≠ 0 := hT.ne'
  have hs' : 0 < c.slope T := hs
  have hs0 : c.slope T ≠ 0 := hs'.ne'
  refine ⟨fun I => sumV_affine c T I hT0, ?_, ?_, ?_⟩
  · intro I I' hlt
    rw [sumV_affine c T I hT0, sumV_affine c T I' hT0]
    have := mul_lt_mul_of_pos_left hlt hs'
    linarith
  · intro V I
    have hres := sumV_sub_target c T I V hT0 hs0
    constructor
    · intro h
      have h0 : c.slope T * (I - c.kvlSolution V T) = 0 := by
        rw [← hres, h, sub_self]
      rcases mul_eq_zero.mp h0 with h1 | h1
      · exact absurd h1 hs0
      · exact sub_eq_zero.mp h1
    · intro h
      have h1 : I - c.kvlSolution V T = 0 := sub_eq_zero.mpr h
      have h2 : c.sumV I T - V = 0 := by rw [hres, h1, mul_zero]
      exact sub_eq_zero.mp h2
  · intro current V hcap
    obtain ⟨hJ, hI, -⟩ := costLoop_of_not_capExit c V T _ hcap
    have hJ1 := costLoop_J1 c V T
      { I1 := current, J1 := 0.0, J0 := 0.0, alpha := 0.01, iterations := 0 }
    rw [← hI] at hJ1
    rw [hJ1, fabs_eq_abs, sumV_sub_target c T _ V hT0 hs0, abs_mul, abs_of_pos hs'] at hJ
    show |(c.costLoop V T
        { I1 := current, J1 := 0.0, J0 := 0.0, alpha := 0.01, iterations := 0 }).current -
        c.kvlSolution V T| ≤ c.tolerance / c.slope T
    rw [le_div_iff₀ hs', mul_comm]
    exact hJ

/-- Witness for C18: the default circuit right after construction and its first
solver call, which leaves through the loop condition. -/
theorem kvl_linear_and_converged_current_close_witness :
    (0 : ℚ) < 0.0001 ∧
    (0 : ℚ) < (AnalogCircuit.fresh 20 0.05 0.00007 50 10 0.1).resistor.resistance +
      (AnalogCircuit.fresh 20 0.05 0.00007 50 10 0.1).inductor.inductance / 0.0001 ∧
    ((AnalogCircuit.fresh 20 0.05 0.00007 50 10 0.1).CostFunctionV 0 0 0.0001).capExit = false ∧
    |((AnalogCircuit.fresh 20 0.05 0.00007 50 10 0.1).CostFunctionV 0 0 0.0001).current -
      (0 - (AnalogCircuit.fresh 20 0.05 0.00007 50 10 0.1).capacitor.voltage +
        (AnalogCircuit.fresh 20 0.05 0.00007 50 10 0.1).inductor.inductance *
          (AnalogCircuit.fresh 20 0.05 0.00007 50 10 0.1).inductor.lastCurrent / 0.0001)
        / ((AnalogCircuit.fresh 20 0.05 0.00007 50 10 0.1).resistor.resistance +
          (AnalogCircuit.fresh 20 0.05 0.00007 50 10 0.1).inductor.inductance / 0.0001)| ≤
      (AnalogCircuit.fresh 20 0.05 0.00007 50 10 0.1).tolerance /
        ((AnalogCircuit.fresh 20 0.05 0.00007 50 10 0.1).resistor.resistance +
          (AnalogCircuit.fresh 20 0.05 0.00007 50 10 0.1).inductor.inductance / 0.0001) :=
  have hs : (0 : ℚ) < (AnalogCircuit.fresh 20 0.05 0.00007 50 10 0.1).resistor.resistance +
      (AnalogCircuit.fresh 20 0.05 0.00007 50 10 0.1).inductor.inductance / 0.0001 := by
    norm_num [AnalogCircuit.fresh]
  have hcap : ((AnalogCircuit.fresh 20 0.05 0.00007 50 10 0.1).CostFunctionV 0 0
      0.0001).capExit = false := by
    rw [fresh_solve_zero]
  ⟨by norm_num, hs, hcap,
    (kvl_linear_and_converged_current_close (AnalogCircuit.fresh 20 0.05 0.00007 50 10 0.1)
      0.0001 (by norm_num [AnalogCircuit.fresh]) (by norm_num [AnalogCircuit.fresh])
      (by norm_num) hs).2.2.2 0 0 hcap⟩

end AnalogSim
